import Mathlib

/-!
# Beam search over the maze game (`src/BeamSearchWithTime.cpp`)

A shallow embedding of `namespace BeamSearchWithTime`: the maze state, the
three beam-search entry points and the properties of the search that the
specification states.

Modelling conventions.

* C++ `int` / `int64_t` values are `Int`.  The only place where a machine
  conversion changes a value is the comparison `next_beam.size() > beam_width`
  (an `int` converted to `size_t`); it is modelled with an explicit `% 2 ^ 64`.
  Signed overflow is undefined in C++ and is outside the model: a game lasts
  `END_TURN` turns and a score grows by at most `9` per turn.
* `int points_[H][W]` is a function `Int → Int → Int` read as `points_ y x`;
  only the cells with `0 ≤ y < H`, `0 ≤ x < W` exist in the program.
* `std::priority_queue<State>` and `std::nth_element` are library code.  They
  are taken as parameters constrained by their library contracts, so every
  theorem holds for every tie-breaking a conforming library may use.
  Executable instances (`listPQ`, `sortNth`) are provided.
* Reading `top()` of an empty queue or `now_beam[0]` of an empty vector is
  undefined behaviour and is the outcome `Outcome.undefined`.
* The wall clock is the sequence of elapsed-millisecond readings that the
  successive `isTimeOver` calls observe.  The unbounded `for (int t = 0;; ++t)`
  loop is given a round budget; exhausting it is the outcome `Outcome.outOfFuel`.
* Every search returns a `Run`: the value the C++ function returns together
  with ghost data (the frontier after each `now_beam = next_beam`).
* The constructor `MazeState(seed)` is a function of the sequence of values that
  `std::mt19937` delivers.
* `src/MazeState.cpp` and `src/Greedy.cpp` hold the same maze on a `3 × 4` grid with
  `END_TURN = 4`; they are embedded in the namespaces `Maze` and `Greedy`.
-/

namespace BeamSearchWithTime

/-! ## Constants and the maze state -/

/-- Grid height, `constexpr const int H = 30`. -/
def H : Int := 30

/-- Grid width, `constexpr const int W = 30`. -/
def W : Int := 30

/-- Game length, `constexpr int END_TURN = 10`. -/
def END_TURN : Int := 10

/-- The struct `Coord`. -/
structure Coord where
  y_ : Int
  x_ : Int

/-- The class `MazeState` (all data members). -/
structure MazeState where
  turn_ : Int
  points_ : Int → Int → Int
  character_ : Coord
  evaluated_score_ : Int
  game_score_ : Int
  first_action_ : Int

/-- The state built by `MazeState() = default`: the in-class initialisers. -/
def defaultState : MazeState :=
  { turn_ := 0
    points_ := fun _ _ => 0
    character_ := { y_ := 0, x_ := 0 }
    evaluated_score_ := 0
    game_score_ := 0
    first_action_ := -1 }

/-- The table `dx[4] = {1, -1, 0, 0}`, read at index `action`. -/
def dx (action : Int) : Int := ([1, -1, 0, 0] : List Int).getD action.toNat 0

/-- The table `dy[4] = {0, 0, 1, -1}`, read at index `action`. -/
def dy (action : Int) : Int := ([0, 0, 1, -1] : List Int).getD action.toNat 0

/-- The member `isDone`. -/
def MazeState.isDone (s : MazeState) : Bool := decide (s.turn_ = END_TURN)

/-- The member `advance`: move, collect the reward of the entered cell, count the turn. -/
def MazeState.advance (s : MazeState) (action : Int) : MazeState :=
  let x := s.character_.x_ + dx action
  let y := s.character_.y_ + dy action
  let point := s.points_ y x
  { s with
    character_ := { y_ := y, x_ := x }
    game_score_ := if point > 0 then s.game_score_ + point else s.game_score_
    points_ := if point > 0 then (fun y1 x1 => if y1 = y ∧ x1 = x then 0 else s.points_ y1 x1)
               else s.points_
    turn_ := s.turn_ + 1 }

/-- The member `legalActions`: the actions `0..3` whose destination is on the grid. -/
def MazeState.legalActions (s : MazeState) : List Int :=
  ([0, 1, 2, 3] : List Int).filter fun action =>
    let ny := s.character_.y_ + dy action
    let nx := s.character_.x_ + dx action
    decide (ny ≥ 0 ∧ ny < H ∧ nx ≥ 0 ∧ nx < W)

/-- The member `evaluateScore`. -/
def MazeState.evaluateScore (s : MazeState) : MazeState :=
  { s with evaluated_score_ := s.game_score_ }

/-- The agent stands on a cell of the grid. -/
def MazeState.inGrid (s : MazeState) : Prop :=
  0 ≤ s.character_.y_ ∧ s.character_.y_ < H ∧ 0 ≤ s.character_.x_ ∧ s.character_.x_ < W

instance (s : MazeState) : Decidable s.inGrid := by
  unfold MazeState.inGrid; exact inferInstance

/-! ## Outcomes -/

/-- What a call of a search function does. -/
inductive Outcome where
  /-- The function returns this `int`. -/
  | ret (action : Int)
  /-- The function reads `top()` or `[0]` of an empty container. -/
  | undefined
  /-- The round budget of the model ran out before the loop was left. -/
  | outOfFuel
  deriving DecidableEq, Repr

/-- The result of a search together with ghost data: `frontiers` lists `now_beam`
after each executed assignment `now_beam = next_beam` (one entry per round), and
`timedOut` tells that the function left through the `isTimeOver` return. -/
structure Run where
  outcome : Outcome
  frontiers : List (List MazeState)
  timedOut : Bool

/-- Record one more round in front of the ghost trace of a run. -/
def Run.after (frontier : List MazeState) (r : Run) : Run :=
  { r with frontiers := frontier :: r.frontiers }

/-! ## Library interfaces -/

/-- The contract of `std::priority_queue<State>` with `operator<` comparing
`evaluated_score_`.  A queue is the list of its elements in the internal order of
the container; `top` is `none` exactly on the empty queue. -/
structure PriorityQueue where
  push : List MazeState → MazeState → List MazeState
  top : List MazeState → Option MazeState
  pop : List MazeState → List MazeState
  push_perm : ∀ q s, List.Perm (push q s) (s :: q)
  top_nil : top [] = none
  top_max : ∀ q, q ≠ [] → ∃ s, top q = some s ∧ List.Perm (s :: pop q) q ∧
    ∀ x ∈ q, x.evaluated_score_ ≤ s.evaluated_score_

/-- The contract of `std::nth_element(first, first + n, last, comp)` with
`comp a b = a.evaluated_score_ > b.evaluated_score_`: the range is permuted and no
element from position `n` on is ordered before an element in front of position `n`. -/
structure NthElement where
  run : List MazeState → Nat → List MazeState
  perm : ∀ l n, List.Perm (run l n) l
  split : ∀ l n, ∀ a ∈ (run l n).take n, ∀ b ∈ (run l n).drop n,
    b.evaluated_score_ ≤ a.evaluated_score_

/-! ## The three searches -/

/-- The body of the loop over `legal_actions`: copy, `advance`, `evaluateScore`, and
in round `0` stamp `first_action_`. -/
def nextState (t : Int) (now_state : MazeState) (action : Int) : MazeState :=
  let next_state := (now_state.advance action).evaluateScore
  if t = 0 then { next_state with first_action_ := action } else next_state

/-- The loop `for (const auto action: legal_actions)` of variants A and B: push every
successor of `now_state` on `next_beam`. -/
def expandInto (pq : PriorityQueue) (t : Int) (now_state : MazeState)
    (next_beam : List MazeState) : List MazeState :=
  now_state.legalActions.foldl (fun nb action => pq.push nb (nextState t now_state action))
    next_beam

/-- The loop `for (int i = 0; i < beam_width; ++i)` of `beamSearchAction`, with
`n` iterations left. -/
def expandA (pq : PriorityQueue) (t : Int) :
    Nat → List MazeState → List MazeState → List MazeState
  | 0, _, next_beam => next_beam
  | n + 1, now_beam, next_beam =>
    match pq.top now_beam with
    | none => next_beam
    | some now_state => expandA pq t n (pq.pop now_beam) (expandInto pq t now_state next_beam)

/-- The loop `for (int t = 0; t < beam_depth; ++t)` of `beamSearchAction`, with `n`
rounds left. -/
def roundsA (pq : PriorityQueue) (beam_width : Int) :
    Nat → Int → List MazeState → MazeState → Run
  | 0, _, _, best_state => ⟨.ret best_state.first_action_, [], false⟩
  | n + 1, t, now_beam, _ =>
    let next_beam := expandA pq t beam_width.toNat now_beam []
    match pq.top next_beam with
    | none => ⟨.undefined, [next_beam], false⟩
    | some best_state =>
      if best_state.isDone then ⟨.ret best_state.first_action_, [next_beam], false⟩
      else (roundsA pq beam_width n (t + 1) next_beam best_state).after next_beam

/-- Variant A with its ghost trace. -/
def runA (pq : PriorityQueue) (state : MazeState) (beam_width beam_depth : Int) : Run :=
  roundsA pq beam_width beam_depth.toNat 0 (pq.push [] state) defaultState

/-- The function `beamSearchAction`. -/
def beamSearchAction (pq : PriorityQueue) (state : MazeState) (beam_width beam_depth : Int) :
    Outcome :=
  (runA pq state beam_width beam_depth).outcome

/-- The class `TimeKeeper`; `start_time_` is the origin of the elapsed readings. -/
structure TimeKeeper where
  time_threshold_ : Int

/-- The member `isTimeOver`, given the elapsed milliseconds it measures. -/
def TimeKeeper.isTimeOver (tk : TimeKeeper) (diff : Int) : Bool :=
  decide (diff ≥ tk.time_threshold_)

/-- The loop `for (int i = 0; i < beam_width; ++i)` of
`beamSearchActionWithTimeThreshold`, with `n` iterations left; `polls` counts the
`isTimeOver` calls made so far and `none` is the return on time-over. -/
def expandB (pq : PriorityQueue) (tk : TimeKeeper) (clock : Nat → Int) (t : Int) :
    Nat → Nat → List MazeState → List MazeState → Option (List MazeState × Nat)
  | 0, polls, _, next_beam => some (next_beam, polls)
  | n + 1, polls, now_beam, next_beam =>
    if tk.isTimeOver (clock polls) then none
    else
      match pq.top now_beam with
      | none => some (next_beam, polls + 1)
      | some now_state =>
        expandB pq tk clock t n (polls + 1) (pq.pop now_beam)
          (expandInto pq t now_state next_beam)

/-- The loop `for (int t = 0;; ++t)` of `beamSearchActionWithTimeThreshold`, with a
budget of `fuel` rounds. -/
def roundsB (pq : PriorityQueue) (tk : TimeKeeper) (clock : Nat → Int) (beam_width : Int) :
    Nat → Int → Nat → List MazeState → MazeState → Run
  | 0, _, _, _, _ => ⟨.outOfFuel, [], false⟩
  | fuel + 1, t, polls, now_beam, best_state =>
    match expandB pq tk clock t beam_width.toNat polls now_beam [] with
    | none => ⟨.ret best_state.first_action_, [], true⟩
    | some (next_beam, polls1) =>
      match pq.top next_beam with
      | none => ⟨.undefined, [next_beam], false⟩
      | some best =>
        if best.isDone then ⟨.ret best.first_action_, [next_beam], false⟩
        else (roundsB pq tk clock beam_width fuel (t + 1) polls1 next_beam best).after next_beam

/-- Variant B with its ghost trace. -/
def runB (pq : PriorityQueue) (clock : Nat → Int) (state : MazeState) (beam_width : Int)
    (time_threshold : Int) (fuel : Nat) : Run :=
  roundsB pq ⟨time_threshold⟩ clock beam_width fuel 0 0 (pq.push [] state) defaultState

/-- The function `beamSearchActionWithTimeThreshold`. -/
def beamSearchActionWithTimeThreshold (pq : PriorityQueue) (clock : Nat → Int)
    (state : MazeState) (beam_width : Int) (time_threshold : Int) (fuel : Nat) : Outcome :=
  (runB pq clock state beam_width time_threshold fuel).outcome

/-- The two nested loops of `beamSearchActionByNthElement` that fill `next_beam`. -/
def expandC (t : Int) (now_beam : List MazeState) : List MazeState :=
  now_beam.foldl (fun nb now_state =>
    now_state.legalActions.foldl (fun nb1 action => nb1 ++ [nextState t now_state action]) nb) []

/-- The selection step `if (next_beam.size() > beam_width) { nth_element; resize }`. -/
def selectC (nth : NthElement) (beam_width : Int) (next_beam : List MazeState) :
    List MazeState :=
  if next_beam.length > (beam_width % 2 ^ 64).toNat then
    (nth.run next_beam beam_width.toNat).take beam_width.toNat
  else next_beam

/-- The final loop of `beamSearchActionByNthElement` that picks `best_state`. -/
def pickBest (now_beam : List MazeState) : MazeState :=
  now_beam.foldl (fun best_state now_state =>
    if now_state.evaluated_score_ > best_state.evaluated_score_ then now_state
    else best_state) defaultState

/-- The loop `for (int t = 0; t < beam_depth; ++t)` of `beamSearchActionByNthElement`
followed by the final pick, with `n` rounds left. -/
def roundsC (nth : NthElement) (beam_width : Int) : Nat → Int → List MazeState → Run
  | 0, _, now_beam => ⟨.ret (pickBest now_beam).first_action_, [], false⟩
  | n + 1, t, now_beam =>
    let next_beam := selectC nth beam_width (expandC t now_beam)
    match next_beam with
    | [] => ⟨.undefined, [next_beam], false⟩
    | s0 :: _ =>
      if s0.isDone then ⟨.ret (pickBest next_beam).first_action_, [next_beam], false⟩
      else (roundsC nth beam_width n (t + 1) next_beam).after next_beam

/-- Variant C with its ghost trace. -/
def runC (nth : NthElement) (state : MazeState) (beam_width beam_depth : Int) : Run :=
  roundsC nth beam_width beam_depth.toNat 0 [state]

/-- The function `beamSearchActionByNthElement`. -/
def beamSearchActionByNthElement (nth : NthElement) (state : MazeState)
    (beam_width beam_depth : Int) : Outcome :=
  (runC nth state beam_width beam_depth).outcome

/-! ## Executable instances of the library interfaces -/

/-- The order used by both containers: `a` goes before `b` when its score is at least
as large. -/
def scoreGe (a b : MazeState) : Prop := b.evaluated_score_ ≤ a.evaluated_score_

instance : DecidableRel scoreGe := fun a b =>
  inferInstanceAs (Decidable (b.evaluated_score_ ≤ a.evaluated_score_))

instance : IsTotal MazeState scoreGe := ⟨fun a b => by unfold scoreGe; omega⟩

instance : IsTrans MazeState scoreGe := ⟨fun a b c h1 h2 => by unfold scoreGe at *; omega⟩

/-- A priority queue that keeps the elements in arrival order and serves the earliest
element among those of maximal score. -/
def listPQ : PriorityQueue where
  push q s := q ++ [s]
  top q := (q.insertionSort scoreGe).head?
  pop q := (q.insertionSort scoreGe).tail
  push_perm q s := by
    exact (List.perm_append_comm : List.Perm (q ++ [s]) ([s] ++ q))
  top_nil := by simp
  top_max q hq := by
    have hp := List.perm_insertionSort scoreGe q
    have hs := List.sorted_insertionSort scoreGe q
    cases hl : q.insertionSort scoreGe with
    | nil =>
      rw [hl] at hp
      exact absurd hp.symm.eq_nil hq
    | cons s rest =>
      rw [hl] at hp hs
      refine ⟨s, by simp [hl], by simpa [hl] using hp, ?_⟩
      intro x hx
      have hx1 : x ∈ s :: rest := hp.symm.subset hx
      rcases List.mem_cons.1 hx1 with h | h
      · subst h; exact le_refl _
      · exact List.rel_of_sorted_cons hs x h

/-- An `nth_element` that sorts the whole range by decreasing score (stable). -/
def sortNth : NthElement where
  run l _ := l.insertionSort scoreGe
  perm l _ := List.perm_insertionSort scoreGe l
  split l n a ha b hb := by
    have hs := List.sorted_insertionSort scoreGe l
    rw [← List.take_append_drop n (l.insertionSort scoreGe)] at hs
    exact (List.pairwise_append.1 hs).2.2 a ha b hb

/-- An `nth_element` that leaves the `n` best elements in front of position `n` in
increasing order of score, the rest behind in decreasing order. -/
def reversedNth : NthElement where
  run l n := ((l.insertionSort scoreGe).take n).reverse ++ (l.insertionSort scoreGe).drop n
  perm l n := by
    have h1 : List.Perm
        (((l.insertionSort scoreGe).take n).reverse ++ (l.insertionSort scoreGe).drop n)
        ((l.insertionSort scoreGe).take n ++ (l.insertionSort scoreGe).drop n) :=
      (List.reverse_perm _).append_right _
    rw [List.take_append_drop] at h1
    exact h1.trans (List.perm_insertionSort scoreGe l)
  split l n a ha b hb := by
    have hs := List.sorted_insertionSort scoreGe l
    rw [← List.take_append_drop n (l.insertionSort scoreGe)] at hs
    have hcross := (List.pairwise_append.1 hs).2.2
    have hlen : (l.insertionSort scoreGe).length = l.length := List.length_insertionSort _ _
    have hrev : (((l.insertionSort scoreGe).take n).reverse).length = min n l.length := by
      rw [List.length_reverse, List.length_take, hlen]
    change a ∈ List.take n
      (((l.insertionSort scoreGe).take n).reverse ++ (l.insertionSort scoreGe).drop n) at ha
    change b ∈ List.drop n
      (((l.insertionSort scoreGe).take n).reverse ++ (l.insertionSort scoreGe).drop n) at hb
    by_cases hn : n ≤ l.length
    · rw [List.take_append_of_le_length (by omega), List.take_of_length_le (by omega)] at ha
      rw [List.drop_append_eq_append_drop, List.drop_of_length_le (by omega), hrev,
        List.nil_append, Nat.min_eq_left hn, Nat.sub_self, List.drop_zero] at hb
      exact hcross a (List.mem_reverse.1 ha) b hb
    · rw [List.drop_of_length_le (by rw [List.length_append, List.length_drop, hrev]; omega)]
        at hb
      simp at hb

/-- A state for tests: all data members given, the grid holding `v` at `(py, px)`. -/
def mkState (turn : Int) (cy cx : Int) (py px v : Int) : MazeState :=
  { turn_ := turn
    points_ := fun y x => if y = py ∧ x = px then v else 0
    character_ := { y_ := cy, x_ := cx }
    evaluated_score_ := 0
    game_score_ := 0
    first_action_ := -1 }

/-! ## Ghost definitions used to state the properties -/

/-- The largest value of the C++ type `int`. -/
def INT_MAX : Int := 2147483647

/-- The successors the search generates from `now_state` in round `t`, in generation
order. -/
def children (t : Int) (now_state : MazeState) : List MazeState :=
  now_state.legalActions.map (nextState t now_state)

/-- All candidates generated in round `t` from the expanded states, in order. -/
def candidates (t : Int) : List MazeState → List MazeState
  | [] => []
  | s :: ss => children t s ++ candidates t ss

/-- The states that the `i` loop of variants A and B pops, in pop order, when it runs
`n` iterations on the queue `q`. -/
def popped (pq : PriorityQueue) : Nat → List MazeState → List MazeState
  | 0, _ => []
  | n + 1, q =>
    match pq.top q with
    | none => []
    | some s => s :: popped pq n (pq.pop q)

/-- The state reached by plain `advance` calls along a list of actions. -/
def advanceAll (s : MazeState) (actions : List Int) : MazeState :=
  actions.foldl MazeState.advance s

/-- Every action of the list is legal in the state it is applied to. -/
def LegalPath : MazeState → List Int → Prop
  | _, [] => True
  | s, a :: as => a ∈ s.legalActions ∧ LegalPath (s.advance a) as

/-- The state generated by the search in round `t` is in `Node init (t + 1)`:
`Node init 0` is the initial state, and a node of level `k + 1` is a successor built
by the loop body in round `k` from a node of level `k`. -/
def Node (init : MazeState) : Nat → MazeState → Prop
  | 0, x => x = init
  | k + 1, x => ∃ p a, Node init k p ∧ a ∈ p.legalActions ∧ x = nextState (k : Int) p a

/-- The queue that the `i` loop of variants A and B leaves unexpanded after `n`
iterations on the queue `q`. -/
def unexpanded (pq : PriorityQueue) : Nat → List MazeState → List MazeState
  | 0, q => q
  | n + 1, q =>
    match pq.top q with
    | none => q
    | some _ => unexpanded pq n (pq.pop q)

/-- The sum of the rewards on the `H × W` cells of the grid. -/
def gridSum (points : Int → Int → Int) : Int :=
  Finset.sum (Finset.range H.toNat) fun y =>
    Finset.sum (Finset.range W.toNat) fun x => points (y : Int) (x : Int)

/-! ## The constructor and the greedy choice -/

/-- The score bound `constexpr const ScoreType INF = 1000000000LL`. -/
def INF : Int := 1000000000

/-- The constructor `MazeState(const int seed)`; `rng k` is the `k`-th value drawn from
`mt_for_construct`.  The agent cell draws no value and keeps the reward `0`, every other
cell takes the next value modulo `10`, row by row. -/
def construct (rng : Nat → Nat) : MazeState :=
  let cy : Int := ((rng 0 % H.toNat : Nat) : Int)
  let cx : Int := ((rng 1 % W.toNat : Nat) : Int)
  { turn_ := 0
    points_ := fun y x =>
      if 0 ≤ y ∧ y < H ∧ 0 ≤ x ∧ x < W then
        if y = cy ∧ x = cx then 0
        else
          let cell := (y * W + x).toNat
          let draws := if cell > (cy * W + cx).toNat then cell - 1 else cell
          ((rng (2 + draws) % 10 : Nat) : Int)
      else 0
    character_ := { y_ := cy, x_ := cx }
    evaluated_score_ := 0
    game_score_ := 0
    first_action_ := -1 }

/-- The function `greedyAction`; the accumulator is `(best_score, best_action)`. -/
def greedyAction (state : MazeState) : Int :=
  (state.legalActions.foldl (fun (best : Int × Int) action =>
    let now_state := (state.advance action).evaluateScore
    if now_state.evaluated_score_ > best.1 then (now_state.evaluated_score_, action)
    else best) (-INF, -1)).2

end BeamSearchWithTime

/-! # The maze of `src/MazeState.cpp` -/

namespace Maze

/-- Grid height, `constexpr const int H = 3`. -/
def H : Int := 3

/-- Grid width, `constexpr const int W = 4`. -/
def W : Int := 4

/-- Game length, `constexpr int END_TURN = 4`. -/
def END_TURN : Int := 4

/-- The struct `Coord`. -/
structure Coord where
  y_ : Int
  x_ : Int

/-- The class `MazeState` (all data members). -/
structure MazeState where
  turn_ : Int
  points_ : Int → Int → Int
  character_ : Coord
  game_score_ : Int

/-- The table `dx[4] = {1, -1, 0, 0}`, read at index `action`. -/
def dx (action : Int) : Int := ([1, -1, 0, 0] : List Int).getD action.toNat 0

/-- The table `dy[4] = {0, 0, 1, -1}`, read at index `action`. -/
def dy (action : Int) : Int := ([0, 0, 1, -1] : List Int).getD action.toNat 0

/-- The member `isDone`. -/
def MazeState.isDone (s : MazeState) : Bool := decide (s.turn_ = END_TURN)

/-- The member `advance`. -/
def MazeState.advance (s : MazeState) (action : Int) : MazeState :=
  let x := s.character_.x_ + dx action
  let y := s.character_.y_ + dy action
  let point := s.points_ y x
  { s with
    character_ := { y_ := y, x_ := x }
    game_score_ := if point > 0 then s.game_score_ + point else s.game_score_
    points_ := if point > 0 then (fun y1 x1 => if y1 = y ∧ x1 = x then 0 else s.points_ y1 x1)
               else s.points_
    turn_ := s.turn_ + 1 }

/-- The member `legalActions`. -/
def MazeState.legalActions (s : MazeState) : List Int :=
  ([0, 1, 2, 3] : List Int).filter fun action =>
    let ny := s.character_.y_ + dy action
    let nx := s.character_.x_ + dx action
    decide (ny ≥ 0 ∧ ny < H ∧ nx ≥ 0 ∧ nx < W)

/-- The agent stands on a cell of the grid. -/
def MazeState.inGrid (s : MazeState) : Prop :=
  0 ≤ s.character_.y_ ∧ s.character_.y_ < H ∧ 0 ≤ s.character_.x_ ∧ s.character_.x_ < W

instance (s : MazeState) : Decidable s.inGrid := by
  unfold MazeState.inGrid; exact inferInstance

/-- The state reached by `advance` calls along a list of actions. -/
def advanceAll (s : MazeState) (actions : List Int) : MazeState :=
  actions.foldl MazeState.advance s

/-- A state for tests: the grid holds `v` at `(py, px)`. -/
def mkState (turn : Int) (cy cx : Int) (py px v : Int) : MazeState :=
  { turn_ := turn
    points_ := fun y x => if y = py ∧ x = px then v else 0
    character_ := { y_ := cy, x_ := cx }
    game_score_ := 0 }

end Maze

/-! # The maze and the greedy choice of `src/Greedy.cpp` -/

namespace Greedy

/-- The score bound `constexpr const ScoreType INF = 1000000000LL`. -/
def INF : Int := 1000000000

/-- Grid height, `constexpr const int H = 3`. -/
def H : Int := 3

/-- Grid width, `constexpr const int W = 4`. -/
def W : Int := 4

/-- Game length, `constexpr int END_TURN = 4`. -/
def END_TURN : Int := 4

/-- The struct `Coord`. -/
structure Coord where
  y_ : Int
  x_ : Int

/-- The class `MazeState` (all data members). -/
structure MazeState where
  turn_ : Int
  points_ : Int → Int → Int
  character_ : Coord
  game_score_ : Int
  evaluated_score_ : Int

/-- The table `dx[4] = {1, -1, 0, 0}`, read at index `action`. -/
def dx (action : Int) : Int := ([1, -1, 0, 0] : List Int).getD action.toNat 0

/-- The table `dy[4] = {0, 0, 1, -1}`, read at index `action`. -/
def dy (action : Int) : Int := ([0, 0, 1, -1] : List Int).getD action.toNat 0

/-- The member `isDone`. -/
def MazeState.isDone (s : MazeState) : Bool := decide (s.turn_ = END_TURN)

/-- The member `advance`. -/
def MazeState.advance (s : MazeState) (action : Int) : MazeState :=
  let x := s.character_.x_ + dx action
  let y := s.character_.y_ + dy action
  let point := s.points_ y x
  { s with
    character_ := { y_ := y, x_ := x }
    game_score_ := if point > 0 then s.game_score_ + point else s.game_score_
    points_ := if point > 0 then (fun y1 x1 => if y1 = y ∧ x1 = x then 0 else s.points_ y1 x1)
               else s.points_
    turn_ := s.turn_ + 1 }

/-- The member `legalActions`. -/
def MazeState.legalActions (s : MazeState) : List Int :=
  ([0, 1, 2, 3] : List Int).filter fun action =>
    let ny := s.character_.y_ + dy action
    let nx := s.character_.x_ + dx action
    decide (ny ≥ 0 ∧ ny < H ∧ nx ≥ 0 ∧ nx < W)

/-- The member `evaluateScore`. -/
def MazeState.evaluateScore (s : MazeState) : MazeState :=
  { s with evaluated_score_ := s.game_score_ }

/-- The agent stands on a cell of the grid. -/
def MazeState.inGrid (s : MazeState) : Prop :=
  0 ≤ s.character_.y_ ∧ s.character_.y_ < H ∧ 0 ≤ s.character_.x_ ∧ s.character_.x_ < W

instance (s : MazeState) : Decidable s.inGrid := by
  unfold MazeState.inGrid; exact inferInstance

/-- The function `greedyAction`; the accumulator is `(best_score, best_action)`. -/
def greedyAction (state : MazeState) : Int :=
  (state.legalActions.foldl (fun (best : Int × Int) action =>
    let now_state := (state.advance action).evaluateScore
    if now_state.evaluated_score_ > best.1 then (now_state.evaluated_score_, action)
    else best) (-INF, -1)).2

/-- The sum of the rewards on the `H × W` cells of the grid. -/
def gridSum (points : Int → Int → Int) : Int :=
  Finset.sum (Finset.range H.toNat) fun y =>
    Finset.sum (Finset.range W.toNat) fun x => points (y : Int) (x : Int)

/-- The state reached by `advance` calls along a list of actions. -/
def advanceAll (s : MazeState) (actions : List Int) : MazeState :=
  actions.foldl MazeState.advance s

/-- Every action of the list is legal in the state it is applied to. -/
def LegalPath : MazeState → List Int → Prop
  | _, [] => True
  | s, a :: as => a ∈ s.legalActions ∧ LegalPath (s.advance a) as

/-- A state for tests: the grid holds `v` at `(py, px)`. -/
def mkState (turn : Int) (cy cx : Int) (py px v : Int) : MazeState :=
  { turn_ := turn
    points_ := fun y x => if y = py ∧ x = px then v else 0
    character_ := { y_ := cy, x_ := cx }
    game_score_ := 0
    evaluated_score_ := 0 }

end Greedy

namespace BeamSearchWithTime

/-! ## The maze state -/

theorem mem_legalActions (s : MazeState) (a : Int) :
    a ∈ s.legalActions ↔ (a = 0 ∨ a = 1 ∨ a = 2 ∨ a = 3) ∧
      0 ≤ s.character_.y_ + dy a ∧ s.character_.y_ + dy a < H ∧
      0 ≤ s.character_.x_ + dx a ∧ s.character_.x_ + dx a < W := by
  simp [MazeState.legalActions, List.mem_filter]

theorem dx_values : dx 0 = 1 ∧ dx 1 = -1 ∧ dx 2 = 0 ∧ dx 3 = 0 := by decide

theorem dy_values : dy 0 = 0 ∧ dy 1 = 0 ∧ dy 2 = 1 ∧ dy 3 = -1 := by decide

theorem legalActions_ne_nil (s : MazeState) (h : s.inGrid) : s.legalActions ≠ [] := by
  obtain ⟨h1, h2, h3, h4⟩ := h
  have hd := dx_values
  have he := dy_values
  unfold H at h2
  unfold W at h4
  by_cases hx : s.character_.x_ + 1 < 30
  · have : (0 : Int) ∈ s.legalActions := by
      rw [mem_legalActions, hd.1, he.1]
      refine ⟨by decide, ?_⟩
      unfold H W
      omega
    exact List.ne_nil_of_mem this
  · have : (1 : Int) ∈ s.legalActions := by
      rw [mem_legalActions, hd.2.1, he.2.1]
      refine ⟨by decide, ?_⟩
      unfold H W
      omega
    exact List.ne_nil_of_mem this

theorem legalActions_length_le (s : MazeState) : s.legalActions.length ≤ 4 := by
  unfold MazeState.legalActions
  exact (List.length_filter_le _ _).trans (by simp)

theorem advance_inGrid (s : MazeState) (a : Int) (h : a ∈ s.legalActions) :
    (s.advance a).inGrid := by
  rw [mem_legalActions] at h
  simp only [MazeState.inGrid, MazeState.advance]
  omega

theorem nextState_inGrid (t : Int) (s : MazeState) (a : Int) (h : a ∈ s.legalActions) :
    (nextState t s a).inGrid := by
  have := advance_inGrid s a h
  unfold nextState
  split <;> simpa [MazeState.inGrid, MazeState.evaluateScore] using this

theorem nextState_turn (t : Int) (s : MazeState) (a : Int) :
    (nextState t s a).turn_ = s.turn_ + 1 := by
  unfold nextState
  split <;> simp [MazeState.evaluateScore, MazeState.advance]

theorem nextState_first_action (t : Int) (s : MazeState) (a : Int) :
    (nextState t s a).first_action_ = if t = 0 then a else s.first_action_ := by
  unfold nextState
  split <;> simp [MazeState.evaluateScore, MazeState.advance]

end BeamSearchWithTime

namespace BeamSearchWithTime

/-! ## Nodes of the search tree -/

theorem node_turn (init : MazeState) :
    ∀ (k : Nat) (x : MazeState), Node init k x → x.turn_ = init.turn_ + k
  | 0, x, h => by simp [Node] at h; simp [h]
  | k + 1, x, h => by
    obtain ⟨p, a, hp, _, rfl⟩ := h
    rw [nextState_turn, node_turn init k p hp]
    push_cast
    ring

theorem node_inGrid (init : MazeState) (hi : init.inGrid) :
    ∀ (k : Nat) (x : MazeState), Node init k x → x.inGrid
  | 0, x, h => by simp [Node] at h; simpa [h] using hi
  | k + 1, x, h => by
    obtain ⟨p, a, _, ha, rfl⟩ := h
    exact nextState_inGrid _ p a ha

theorem node_first_action (init : MazeState) :
    ∀ (k : Nat) (x : MazeState), Node init (k + 1) x → x.first_action_ ∈ init.legalActions
  | 0, x, h => by
    obtain ⟨p, a, hp, ha, rfl⟩ := h
    simp only [Node] at hp
    subst hp
    simpa [nextState_first_action] using ha
  | k + 1, x, h => by
    obtain ⟨p, a, hp, _, rfl⟩ := h
    have hk : ((k + 1 : Nat) : Int) ≠ 0 := by omega
    rw [nextState_first_action, if_neg hk]
    exact node_first_action init k p hp

/-! ## The expansion loops -/

theorem mem_candidates (t : Int) (x : MazeState) :
    ∀ ss : List MazeState, x ∈ candidates t ss ↔
      ∃ s ∈ ss, ∃ a ∈ s.legalActions, x = nextState t s a
  | [] => by simp [candidates]
  | s :: ss => by
    simp only [candidates, List.mem_append, mem_candidates t x ss, children, List.mem_map,
      List.mem_cons, exists_eq_or_imp]
    constructor
    · rintro (⟨a, ha, rfl⟩ | h)
      · exact Or.inl ⟨a, ha, rfl⟩
      · exact Or.inr h
    · rintro (⟨a, ha, rfl⟩ | h)
      · exact Or.inl ⟨a, ha, rfl⟩
      · exact Or.inr h

theorem length_candidates_le (t : Int) :
    ∀ ss : List MazeState, (candidates t ss).length ≤ 4 * ss.length
  | [] => by simp [candidates]
  | s :: ss => by
    have h1 := legalActions_length_le s
    have h2 := length_candidates_le t ss
    simp only [candidates, children, List.length_append, List.length_map, List.length_cons]
    omega

theorem candidates_ne_nil (t : Int) (ss : List MazeState) (hne : ss ≠ [])
    (hg : ∀ s ∈ ss, s.inGrid) : candidates t ss ≠ [] := by
  cases ss with
  | nil => exact absurd rfl hne
  | cons s ss =>
    have h := legalActions_ne_nil s (hg s (List.mem_cons_self _ _))
    cases hl : s.legalActions with
    | nil => exact absurd hl h
    | cons a as => simp [candidates, children, hl]

theorem foldl_push_perm (pq : PriorityQueue) (f : Int → MazeState) :
    ∀ (l : List Int) (nb : List MazeState),
      List.Perm (l.foldl (fun nb a => pq.push nb (f a)) nb) (nb ++ l.map f)
  | [], nb => by simp
  | a :: l, nb => by
    simp only [List.foldl_cons, List.map_cons]
    refine (foldl_push_perm pq f l _).trans ?_
    refine ((pq.push_perm nb (f a)).append_right _).trans ?_
    simpa using (@List.perm_middle _ (f a) nb (l.map f)).symm

theorem expandInto_perm (pq : PriorityQueue) (t : Int) (s : MazeState)
    (nb : List MazeState) : List.Perm (expandInto pq t s nb) (nb ++ children t s) :=
  foldl_push_perm pq (nextState t s) s.legalActions nb

theorem expandA_perm (pq : PriorityQueue) (t : Int) :
    ∀ (n : Nat) (now nb : List MazeState),
      List.Perm (expandA pq t n now nb) (nb ++ candidates t (popped pq n now))
  | 0, now, nb => by simp [expandA, popped, candidates]
  | n + 1, now, nb => by
    unfold expandA popped
    cases pq.top now with
    | none => simp [candidates]
    | some s =>
      simp only [candidates]
      refine (expandA_perm pq t n _ _).trans ?_
      rw [← List.append_assoc]
      exact (expandInto_perm pq t s nb).append_right _

theorem popped_length_le (pq : PriorityQueue) :
    ∀ (n : Nat) (q : List MazeState), (popped pq n q).length ≤ n
  | 0, q => by simp [popped]
  | n + 1, q => by
    unfold popped
    cases pq.top q with
    | none => simp
    | some s => simpa using popped_length_le pq n (pq.pop q)

theorem top_some_of_ne_nil (pq : PriorityQueue) (q : List MazeState) (h : q ≠ []) :
    ∃ s, pq.top q = some s ∧ s ∈ q ∧ ∀ x ∈ q, x.evaluated_score_ ≤ s.evaluated_score_ := by
  obtain ⟨s, h1, h2, h3⟩ := pq.top_max q h
  exact ⟨s, h1, h2.subset (List.mem_cons_self _ _), h3⟩

theorem top_mem (pq : PriorityQueue) (q : List MazeState) (s : MazeState)
    (h : pq.top q = some s) :
    s ∈ q ∧ List.Perm (s :: pq.pop q) q ∧ ∀ x ∈ q, x.evaluated_score_ ≤ s.evaluated_score_ := by
  have hq : q ≠ [] := by
    rintro rfl
    rw [pq.top_nil] at h
    exact Option.noConfusion h
  obtain ⟨s1, h1, h2, h3⟩ := pq.top_max q hq
  rw [h] at h1
  cases h1
  exact ⟨h2.subset (List.mem_cons_self _ _), h2, h3⟩

theorem popped_subset (pq : PriorityQueue) :
    ∀ (n : Nat) (q : List MazeState), ∀ s ∈ popped pq n q, s ∈ q
  | 0, q, s, h => by simp [popped] at h
  | n + 1, q, s, h => by
    unfold popped at h
    cases ht : pq.top q with
    | none => simp [ht] at h
    | some s1 =>
      obtain ⟨hm, hp, _⟩ := top_mem pq q s1 ht
      simp only [ht, List.mem_cons] at h
      rcases h with rfl | h
      · exact hm
      · exact hp.subset (List.mem_cons_of_mem _ (popped_subset pq n _ s h))

theorem popped_ne_nil (pq : PriorityQueue) (n : Nat) (q : List MazeState) (hn : 0 < n)
    (hq : q ≠ []) : popped pq n q ≠ [] := by
  obtain ⟨s, hs, _⟩ := top_some_of_ne_nil pq q hq
  cases n with
  | zero => omega
  | succ n => simp [popped, hs]

theorem expandC_eq (t : Int) (now : List MazeState) : expandC t now = candidates t now := by
  have inner : ∀ (s : MazeState) (l : List Int) (nb : List MazeState),
      l.foldl (fun nb1 action => nb1 ++ [nextState t s action]) nb
        = nb ++ l.map (nextState t s) := by
    intro s l
    induction l with
    | nil => simp
    | cons a l ih => intro nb; simp [ih]
  have outer : ∀ (l : List MazeState) (nb : List MazeState),
      l.foldl (fun nb now_state =>
        now_state.legalActions.foldl
          (fun nb1 action => nb1 ++ [nextState t now_state action]) nb) nb
        = nb ++ candidates t l := by
    intro l
    induction l with
    | nil => simp [candidates]
    | cons s l ih =>
      intro nb
      simp only [List.foldl_cons, candidates, children]
      rw [ih, inner, List.append_assoc]
  simpa [expandC] using outer now []

end BeamSearchWithTime

namespace BeamSearchWithTime

/-! ## One round of variants A and B -/

theorem expandA_node (pq : PriorityQueue) (init : MazeState) (k n : Nat)
    (now : List MazeState) (hn : ∀ x ∈ now, Node init k x) :
    ∀ x ∈ expandA pq (k : Int) n now [], Node init (k + 1) x := by
  intro x hx
  have hx1 := (expandA_perm pq (k : Int) n now []).subset hx
  simp only [List.nil_append, mem_candidates] at hx1
  obtain ⟨s, hs, a, ha, rfl⟩ := hx1
  exact ⟨s, a, hn s (popped_subset pq n now s hs), ha, rfl⟩

theorem expandA_length_le (pq : PriorityQueue) (t : Int) (n : Nat) (now : List MazeState) :
    (expandA pq t n now []).length ≤ 4 * n := by
  have h1 := (expandA_perm pq t n now []).length_eq
  have h2 := length_candidates_le t (popped pq n now)
  have h3 := popped_length_le pq n now
  simp only [List.nil_append] at h1
  omega

theorem expandA_ne_nil (pq : PriorityQueue) (t : Int) (n : Nat) (now : List MazeState)
    (hn : 0 < n) (hne : now ≠ []) (hg : ∀ s ∈ now, s.inGrid) :
    expandA pq t n now [] ≠ [] := by
  have h1 := expandA_perm pq t n now []
  have h2 := candidates_ne_nil t (popped pq n now) (popped_ne_nil pq n now hn hne)
    (fun s hs => hg s (popped_subset pq n now s hs))
  intro h
  rw [h] at h1
  simp only [List.nil_append] at h1
  exact h2 h1.symm.eq_nil

theorem roundsA_zero (pq : PriorityQueue) (w : Int) (t : Int) (now : List MazeState)
    (best : MazeState) :
    roundsA pq w 0 t now best = ⟨.ret best.first_action_, [], false⟩ := rfl

theorem roundsA_succ (pq : PriorityQueue) (w : Int) (n : Nat) (t : Int)
    (now : List MazeState) (best : MazeState) :
    roundsA pq w (n + 1) t now best =
      match pq.top (expandA pq t w.toNat now []) with
      | none => ⟨.undefined, [expandA pq t w.toNat now []], false⟩
      | some b =>
        if b.isDone then ⟨.ret b.first_action_, [expandA pq t w.toNat now []], false⟩
        else (roundsA pq w n (t + 1) (expandA pq t w.toNat now []) b).after
          (expandA pq t w.toNat now []) := rfl

/-- The frontiers recorded by variant A hold nodes of the search tree of the right
level and at most four successors per expanded state. -/
theorem roundsA_frontiers (pq : PriorityQueue) (w : Int) (init : MazeState) :
    ∀ (n k : Nat) (now : List MazeState) (best : MazeState),
      (∀ x ∈ now, Node init k x) →
      ∀ (i : Nat) (fr : List MazeState),
        (roundsA pq w n (k : Int) now best).frontiers[i]? = some fr →
        (∀ x ∈ fr, Node init (k + i + 1) x) ∧ fr.length ≤ 4 * w.toNat
  | 0, k, now, best, _, i, fr, h => by simp [roundsA_zero] at h
  | n + 1, k, now, best, hn, i, fr, h => by
    have hnode := expandA_node pq init k w.toNat now hn
    have hlen := expandA_length_le pq (k : Int) w.toNat now
    rw [roundsA_succ] at h
    have h0 : ∀ fr, [expandA pq (k : Int) w.toNat now []][i]? = some fr →
        (∀ x ∈ fr, Node init (k + i + 1) x) ∧ fr.length ≤ 4 * w.toNat := by
      intro fr h
      cases i with
      | zero => simp at h; subst h; exact ⟨hnode, hlen⟩
      | succ i => simp at h
    cases ht : pq.top (expandA pq (k : Int) w.toNat now []) with
    | none => rw [ht] at h; exact h0 fr h
    | some b =>
      rw [ht] at h
      by_cases hd : b.isDone = true
      · simp only [hd, if_true] at h; exact h0 fr h
      · simp only [hd, Run.after] at h
        cases i with
        | zero => simp at h; subst h; exact ⟨hnode, hlen⟩
        | succ i =>
          simp only [Bool.false_eq_true, if_false, List.getElem?_cons_succ] at h
          have hc : ((k : Int) + 1) = ((k + 1 : Nat) : Int) := by push_cast; ring
          rw [hc] at h
          have := roundsA_frontiers pq w init n (k + 1) _ b hnode i fr h
          have he : k + (i + 1) + 1 = k + 1 + i + 1 := by omega
          rw [he]
          exact this

end BeamSearchWithTime

namespace BeamSearchWithTime

/-- Every frontier recorded by variant A is the queue filled by the `i` loop from the
frontier before it: a rearrangement of all successors of the states popped. -/
theorem roundsA_round (pq : PriorityQueue) (w : Int) :
    ∀ (n k : Nat) (now : List MazeState) (best : MazeState) (i : Nat)
      (fr : List MazeState),
      (roundsA pq w n (k : Int) now best).frontiers[i]? = some fr →
      ∃ prev, (now :: (roundsA pq w n (k : Int) now best).frontiers)[i]? = some prev ∧
        fr = expandA pq ((k + i : Nat) : Int) w.toNat prev [] ∧
        List.Perm fr (candidates ((k + i : Nat) : Int) (popped pq w.toNat prev)) := by
  intro n
  induction n with
  | zero => intro k now best i fr h; simp [roundsA_zero] at h
  | succ n ih =>
    intro k now best i fr h
    have hperm := expandA_perm pq (k : Int) w.toNat now []
    simp only [List.nil_append] at hperm
    rw [roundsA_succ] at h ⊢
    cases hb : pq.top (expandA pq (k : Int) w.toNat now []) with
    | none =>
      rw [hb] at h
      cases i with
      | zero => simp at h; subst h; exact ⟨now, by simp, by simp, by simpa using hperm⟩
      | succ i => simp at h
    | some b =>
      rw [hb] at h
      by_cases hd : b.isDone = true
      · simp only [hd, if_true] at h ⊢
        cases i with
        | zero => simp at h; subst h; exact ⟨now, by simp, by simp, by simpa using hperm⟩
        | succ i => simp at h
      · simp only [hd, Bool.false_eq_true, if_false, Run.after] at h ⊢
        cases i with
        | zero => simp at h; subst h; exact ⟨now, by simp, by simp, by simpa using hperm⟩
        | succ i =>
          simp only [List.getElem?_cons_succ] at h ⊢
          have hc : ((k : Int) + 1) = ((k + 1 : Nat) : Int) := by push_cast; ring
          rw [hc] at h ⊢
          obtain ⟨prev, h1, h2, h3⟩ := ih (k + 1) _ b i fr h
          have he : k + (i + 1) = k + 1 + i := by omega
          rw [he]
          exact ⟨prev, h1, h2, h3⟩

/-- With a non-empty frontier of grid states and `beam_width ≥ 1`, variant A returns the
`first_action_` of a best state of the last frontier it built. -/
theorem roundsA_result (pq : PriorityQueue) (w : Int) (hw : 1 ≤ w) (init : MazeState)
    (hi : init.inGrid) :
    ∀ (n k : Nat) (now : List MazeState) (best : MazeState),
      now ≠ [] → (∀ x ∈ now, Node init k x) →
      ∃ b fr, (roundsA pq w (n + 1) (k : Int) now best).frontiers.getLast? = some fr ∧
        b ∈ fr ∧ (∀ x ∈ fr, x.evaluated_score_ ≤ b.evaluated_score_) ∧
        (roundsA pq w (n + 1) (k : Int) now best).outcome = .ret b.first_action_ ∧
        (roundsA pq w (n + 1) (k : Int) now best).timedOut = false := by
  intro n
  induction n with
  | zero =>
    intro k now best hne hn
    have hnode := expandA_node pq init k w.toNat now hn
    have hnn := expandA_ne_nil pq (k : Int) w.toNat now (by omega) hne
      (fun s hs => node_inGrid init hi k s (hn s hs))
    obtain ⟨b, hb, hbm, hmax⟩ := top_some_of_ne_nil pq _ hnn
    refine ⟨b, _, ?_, hbm, hmax, ?_, ?_⟩ <;>
      rw [roundsA_succ, hb] <;> by_cases hd : b.isDone = true <;>
      simp [hd, roundsA_zero, Run.after]
  | succ n ih =>
    intro k now best hne hn
    have hnode := expandA_node pq init k w.toNat now hn
    have hnn := expandA_ne_nil pq (k : Int) w.toNat now (by omega) hne
      (fun s hs => node_inGrid init hi k s (hn s hs))
    obtain ⟨b, hb, hbm, hmax⟩ := top_some_of_ne_nil pq _ hnn
    by_cases hd : b.isDone = true
    · refine ⟨b, _, ?_, hbm, hmax, ?_, ?_⟩ <;> rw [roundsA_succ, hb] <;> simp [hd]
    · have hc : ((k : Int) + 1) = ((k + 1 : Nat) : Int) := by push_cast; ring
      obtain ⟨b1, fr, h1, h2, h3, h4, h5⟩ := ih (k + 1) _ b hnn hnode
      refine ⟨b1, fr, ?_, h2, h3, ?_, ?_⟩
      · rw [roundsA_succ pq w (n + 1), hb]
        simp only [hd, Bool.false_eq_true, if_false, Run.after, hc]
        rw [List.getLast?_cons, h1]
        rfl
      · rw [roundsA_succ pq w (n + 1), hb]
        simp only [hd, Bool.false_eq_true, if_false, Run.after, hc]
        exact h4
      · rw [roundsA_succ pq w (n + 1), hb]
        simp only [hd, Bool.false_eq_true, if_false, Run.after, hc]
        exact h5

/-- The number of rounds variant A executes. -/
theorem roundsA_length (pq : PriorityQueue) (w : Int) (hw : 1 ≤ w) (init : MazeState)
    (hi : init.inGrid) :
    ∀ (n k : Nat) (now : List MazeState) (best : MazeState),
      now ≠ [] → (∀ x ∈ now, Node init k x) →
      (roundsA pq w n (k : Int) now best).frontiers.length =
        if init.turn_ + k < END_TURN then min n (END_TURN - init.turn_ - k).toNat else n := by
  intro n
  induction n with
  | zero => intro k now best _ _; simp [roundsA_zero]
  | succ n ih =>
    intro k now best hne hn
    have hnode := expandA_node pq init k w.toNat now hn
    have hnn := expandA_ne_nil pq (k : Int) w.toNat now (by omega) hne
      (fun s hs => node_inGrid init hi k s (hn s hs))
    obtain ⟨b, hb, hbm, hmax⟩ := top_some_of_ne_nil pq _ hnn
    have hturn := node_turn init (k + 1) b (hnode b hbm)
    have hc : ((k : Int) + 1) = ((k + 1 : Nat) : Int) := by push_cast; ring
    rw [roundsA_succ, hb]
    by_cases hd : b.isDone = true
    · have hd1 : b.turn_ = END_TURN := by simpa [MazeState.isDone] using hd
      simp only [hd, if_true, List.length_singleton]
      push_cast at hturn
      split <;> omega
    · have hd1 : b.turn_ ≠ END_TURN := by simpa [MazeState.isDone] using hd
      simp only [hd, Bool.false_eq_true, if_false, Run.after, List.length_cons, hc]
      rw [ih (k + 1) _ b hnn hnode]
      push_cast at hturn ⊢
      split <;> split <;> omega

/-- Once the budget covers the remaining turns, more rounds change nothing in variant A. -/
theorem roundsA_stable (pq : PriorityQueue) (w : Int) (init : MazeState) :
    ∀ (n k : Nat) (now : List MazeState) (best : MazeState),
      (∀ x ∈ now, Node init k x) → init.turn_ + k < END_TURN →
      (END_TURN - init.turn_ - k).toNat ≤ n →
      roundsA pq w n (k : Int) now best =
        roundsA pq w (END_TURN - init.turn_ - k).toNat (k : Int) now best := by
  intro n
  induction n with
  | zero => intro k now best _ h1 h2; omega
  | succ n ih =>
    intro k now best hn h1 h2
    have hnode := expandA_node pq init k w.toNat now hn
    obtain ⟨m, hm⟩ : ∃ m, (END_TURN - init.turn_ - k).toNat = m + 1 :=
      ⟨(END_TURN - init.turn_ - k).toNat - 1, by omega⟩
    have hc : ((k : Int) + 1) = ((k + 1 : Nat) : Int) := by push_cast; ring
    rw [hm, roundsA_succ, roundsA_succ]
    cases hb : pq.top (expandA pq (k : Int) w.toNat now []) with
    | none => rfl
    | some b =>
      have hbm := (top_mem pq _ b hb).1
      have hturn := node_turn init (k + 1) b (hnode b hbm)
      by_cases hd : b.isDone = true
      · simp [hd]
      · have hd1 : b.turn_ ≠ END_TURN := by simpa [MazeState.isDone] using hd
        simp only [hd, Bool.false_eq_true, if_false, hc]
        push_cast at hturn
        have hm1 : (END_TURN - init.turn_ - ((k + 1 : Nat) : Int)).toNat = m := by
          push_cast; omega
        rw [ih (k + 1) _ b hnode (by push_cast; omega) (by rw [hm1]; omega), hm1]

end BeamSearchWithTime

namespace BeamSearchWithTime

/-! ## Variant B against variant A -/

theorem expandB_eq (pq : PriorityQueue) (tk : TimeKeeper) (clock : Nat → Int) (t : Int) :
    ∀ (n p : Nat) (now nb nb1 : List MazeState) (p1 : Nat),
      expandB pq tk clock t n p now nb = some (nb1, p1) → nb1 = expandA pq t n now nb
  | 0, p, now, nb, nb1, p1, h => by
    simp only [expandB, Option.some.injEq, Prod.mk.injEq] at h
    simp [expandA, h.1]
  | n + 1, p, now, nb, nb1, p1, h => by
    unfold expandB at h
    unfold expandA
    by_cases hc : tk.isTimeOver (clock p) = true
    · simp [hc] at h
    · simp only [hc, Bool.false_eq_true, if_false] at h
      cases ht : pq.top now with
      | none =>
        simp only [ht, Option.some.injEq, Prod.mk.injEq] at h
        exact h.1.symm
      | some s =>
        simp only [ht] at h
        exact expandB_eq pq tk clock t n (p + 1) _ _ nb1 p1 h

theorem expandB_first_poll (pq : PriorityQueue) (tk : TimeKeeper) (clock : Nat → Int)
    (t : Int) (n p : Nat) (now nb : List MazeState)
    (h : tk.isTimeOver (clock p) = true) :
    expandB pq tk clock t (n + 1) p now nb = none := by
  simp [expandB, h]

theorem roundsB_zero (pq : PriorityQueue) (tk : TimeKeeper) (clock : Nat → Int) (w : Int)
    (t : Int) (p : Nat) (now : List MazeState) (best : MazeState) :
    roundsB pq tk clock w 0 t p now best = ⟨.outOfFuel, [], false⟩ := rfl

theorem roundsB_succ (pq : PriorityQueue) (tk : TimeKeeper) (clock : Nat → Int) (w : Int)
    (fuel : Nat) (t : Int) (p : Nat) (now : List MazeState) (best : MazeState) :
    roundsB pq tk clock w (fuel + 1) t p now best =
      match expandB pq tk clock t w.toNat p now [] with
      | none => ⟨.ret best.first_action_, [], true⟩
      | some (next_beam, p1) =>
        match pq.top next_beam with
        | none => ⟨.undefined, [next_beam], false⟩
        | some b =>
          if b.isDone then ⟨.ret b.first_action_, [next_beam], false⟩
          else (roundsB pq tk clock w fuel (t + 1) p1 next_beam b).after next_beam := rfl

/-- The frontiers recorded by variant B are those of variant A run for as many rounds. -/
theorem roundsB_frontiers (pq : PriorityQueue) (tk : TimeKeeper) (clock : Nat → Int)
    (w : Int) :
    ∀ (fuel : Nat) (t : Int) (p : Nat) (now : List MazeState) (best : MazeState),
      (roundsA pq w (roundsB pq tk clock w fuel t p now best).frontiers.length
        t now best).frontiers = (roundsB pq tk clock w fuel t p now best).frontiers := by
  intro fuel
  induction fuel with
  | zero => intro t p now best; simp [roundsB_zero, roundsA_zero]
  | succ fuel ih =>
    intro t p now best
    rw [roundsB_succ]
    cases he : expandB pq tk clock t w.toNat p now [] with
    | none => simp [roundsA_zero]
    | some r =>
      obtain ⟨nb, p1⟩ := r
      have hnb := expandB_eq pq tk clock t w.toNat p now [] nb p1 he
      subst hnb
      simp only []
      cases hb : pq.top (expandA pq t w.toNat now []) with
      | none => simp [roundsA_succ, hb]
      | some b =>
        simp only []
        by_cases hd : b.isDone = true
        · simp [hd, roundsA_succ, hb]
        · simp only [hd, Bool.false_eq_true, if_false, Run.after, List.length_cons]
          rw [roundsA_succ, hb]
          simp only [hd, Bool.false_eq_true, if_false, Run.after]
          rw [ih (t + 1) p1 _ b]

end BeamSearchWithTime

namespace BeamSearchWithTime

/-- Variant B returns within `END_TURN - turn_` rounds from a grid state that is not
past the end of the game, whatever the clock does. -/
theorem roundsB_returns (pq : PriorityQueue) (tk : TimeKeeper) (clock : Nat → Int)
    (w : Int) (hw : 1 ≤ w) (init : MazeState) (hi : init.inGrid) :
    ∀ (fuel k p : Nat) (now : List MazeState) (best : MazeState),
      now ≠ [] → (∀ x ∈ now, Node init k x) → init.turn_ + k < END_TURN →
      (END_TURN - init.turn_ - k).toNat ≤ fuel →
      ∃ a, (roundsB pq tk clock w fuel (k : Int) p now best).outcome = .ret a := by
  intro fuel
  induction fuel with
  | zero => intro k p now best _ _ h1 h2; omega
  | succ fuel ih =>
    intro k p now best hne hn h1 h2
    rw [roundsB_succ]
    cases he : expandB pq tk clock (k : Int) w.toNat p now [] with
    | none => exact ⟨_, rfl⟩
    | some r =>
      obtain ⟨nb, p1⟩ := r
      have hnb := expandB_eq pq tk clock (k : Int) w.toNat p now [] nb p1 he
      subst hnb
      have hnode := expandA_node pq init k w.toNat now hn
      have hnn := expandA_ne_nil pq (k : Int) w.toNat now (by omega) hne
        (fun s hs => node_inGrid init hi k s (hn s hs))
      obtain ⟨b, hb, hbm, _⟩ := top_some_of_ne_nil pq _ hnn
      have hturn := node_turn init (k + 1) b (hnode b hbm)
      simp only [hb]
      by_cases hd : b.isDone = true
      · simp [hd]
      · have hd1 : b.turn_ ≠ END_TURN := by simpa [MazeState.isDone] using hd
        have hc : ((k : Int) + 1) = ((k + 1 : Nat) : Int) := by push_cast; ring
        simp only [hd, Bool.false_eq_true, if_false, Run.after, hc]
        push_cast at hturn
        exact ih (k + 1) p1 _ b hnn hnode (by push_cast; omega) (by push_cast; omega)

/-! ## The selection step of variant C -/

theorem toNat_mod_le (w : Int) (hw : 0 ≤ w) : (w % 2 ^ 64).toNat ≤ w.toNat := by
  omega

theorem selectC_length (nth : NthElement) (w : Int) (hw : 0 ≤ w) (l : List MazeState) :
    (selectC nth w l).length = min w.toNat l.length := by
  have h1 := toNat_mod_le w hw
  have h2 := (nth.perm l w.toNat).length_eq
  unfold selectC
  split
  · rw [List.length_take, h2]
  · omega

theorem selectC_split (nth : NthElement) (w : Int) (l : List MazeState) :
    ∃ discarded, List.Perm (selectC nth w l ++ discarded) l ∧
      ∀ a ∈ selectC nth w l, ∀ b ∈ discarded, b.evaluated_score_ ≤ a.evaluated_score_ := by
  unfold selectC
  split
  · refine ⟨(nth.run l w.toNat).drop w.toNat, ?_, nth.split l w.toNat⟩
    rw [List.take_append_drop]
    exact nth.perm l w.toNat
  · exact ⟨[], by simp, by simp⟩

theorem selectC_id (nth : NthElement) (w : Int) (hw : 0 ≤ w) (hm : w ≤ INT_MAX)
    (l : List MazeState) (hl : (l.length : Int) ≤ w) : selectC nth w l = l := by
  unfold INT_MAX at hm
  have h1 : w % 2 ^ 64 = w := Int.emod_eq_of_lt hw (by omega)
  unfold selectC
  rw [h1, if_neg (by omega)]

theorem selectC_subset (nth : NthElement) (w : Int) (l : List MazeState) :
    ∀ x ∈ selectC nth w l, x ∈ l := by
  obtain ⟨d, hp, _⟩ := selectC_split nth w l
  intro x hx
  exact hp.subset (List.mem_append_left _ hx)

theorem selectC_ne_nil (nth : NthElement) (w : Int) (hw : 1 ≤ w) (l : List MazeState)
    (hl : l ≠ []) : selectC nth w l ≠ [] := by
  have h := selectC_length nth w (by omega) l
  have h1 : 0 < l.length := List.length_pos.2 hl
  intro h2
  rw [h2] at h
  simp only [List.length_nil] at h
  omega

end BeamSearchWithTime

namespace BeamSearchWithTime

/-! ## The rounds of variant C -/

theorem roundC_node (nth : NthElement) (w : Int) (init : MazeState) (k : Nat)
    (now : List MazeState) (hn : ∀ x ∈ now, Node init k x) :
    ∀ x ∈ selectC nth w (expandC (k : Int) now), Node init (k + 1) x := by
  intro x hx
  have hx1 := selectC_subset nth w _ x hx
  rw [expandC_eq, mem_candidates] at hx1
  obtain ⟨s, hs, a, ha, rfl⟩ := hx1
  exact ⟨s, a, hn s hs, ha, rfl⟩

theorem roundC_ne_nil (nth : NthElement) (w : Int) (hw : 1 ≤ w) (t : Int)
    (now : List MazeState) (hne : now ≠ []) (hg : ∀ s ∈ now, s.inGrid) :
    selectC nth w (expandC t now) ≠ [] := by
  rw [expandC_eq]
  exact selectC_ne_nil nth w hw _ (candidates_ne_nil t now hne hg)

theorem roundsC_zero (nth : NthElement) (w : Int) (t : Int) (now : List MazeState) :
    roundsC nth w 0 t now = ⟨.ret (pickBest now).first_action_, [], false⟩ := rfl

theorem roundsC_succ (nth : NthElement) (w : Int) (n : Nat) (t : Int)
    (now : List MazeState) :
    roundsC nth w (n + 1) t now =
      match selectC nth w (expandC t now) with
      | [] => ⟨.undefined, [[]], false⟩
      | s0 :: rest =>
        if s0.isDone then ⟨.ret (pickBest (s0 :: rest)).first_action_, [s0 :: rest], false⟩
        else (roundsC nth w n (t + 1) (s0 :: rest)).after (s0 :: rest) := by
  simp only [roundsC]
  cases selectC nth w (expandC t now) <;> rfl

/-- The frontiers recorded by variant C hold nodes of the search tree of the right
level and at most `beam_width` of them. -/
theorem roundsC_frontiers (nth : NthElement) (w : Int) (init : MazeState) :
    ∀ (n k : Nat) (now : List MazeState),
      (∀ x ∈ now, Node init k x) →
      ∀ (i : Nat) (fr : List MazeState),
        (roundsC nth w n (k : Int) now).frontiers[i]? = some fr →
        (∀ x ∈ fr, Node init (k + i + 1) x) ∧ (0 ≤ w → fr.length ≤ w.toNat) := by
  intro n
  induction n with
  | zero => intro k now _ i fr h; simp [roundsC_zero] at h
  | succ n ih =>
    intro k now hn i fr h
    have hnode := roundC_node nth w init k now hn
    have hlen : 0 ≤ w → (selectC nth w (expandC (k : Int) now)).length ≤ w.toNat := by
      intro hw
      rw [selectC_length nth w hw]
      exact Nat.min_le_left _ _
    rw [roundsC_succ] at h
    cases hs : selectC nth w (expandC (k : Int) now) with
    | nil =>
      rw [hs] at h
      cases i with
      | zero => simp at h; subst h; simp
      | succ i => simp at h
    | cons s0 rest =>
      rw [hs] at h hnode hlen
      by_cases hd : s0.isDone = true
      · simp only [hd, if_true] at h
        cases i with
        | zero => simp at h; subst h; exact ⟨hnode, hlen⟩
        | succ i => simp at h
      · simp only [hd, Bool.false_eq_true, if_false, Run.after] at h
        cases i with
        | zero => simp at h; subst h; exact ⟨hnode, hlen⟩
        | succ i =>
          simp only [List.getElem?_cons_succ] at h
          have hc : ((k : Int) + 1) = ((k + 1 : Nat) : Int) := by push_cast; ring
          rw [hc] at h
          have := ih (k + 1) _ hnode i fr h
          have he : k + (i + 1) + 1 = k + 1 + i + 1 := by omega
          rw [he]
          exact this

/-- The number of rounds variant C executes, and that it returns. -/
theorem roundsC_length (nth : NthElement) (w : Int) (hw : 1 ≤ w) (init : MazeState)
    (hi : init.inGrid) :
    ∀ (n k : Nat) (now : List MazeState),
      now ≠ [] → (∀ x ∈ now, Node init k x) →
      (roundsC nth w n (k : Int) now).frontiers.length =
        (if init.turn_ + k < END_TURN then min n (END_TURN - init.turn_ - k).toNat else n) ∧
      ∃ a, (roundsC nth w n (k : Int) now).outcome = .ret a := by
  intro n
  induction n with
  | zero => intro k now _ _; simp [roundsC_zero]
  | succ n ih =>
    intro k now hne hn
    have hnode := roundC_node nth w init k now hn
    have hnn := roundC_ne_nil nth w hw (k : Int) now hne
      (fun s hs => node_inGrid init hi k s (hn s hs))
    rw [roundsC_succ]
    cases hs : selectC nth w (expandC (k : Int) now) with
    | nil => exact absurd hs hnn
    | cons s0 rest =>
      rw [hs] at hnode hnn
      have hturn := node_turn init (k + 1) s0 (hnode s0 (List.mem_cons_self _ _))
      have hc : ((k : Int) + 1) = ((k + 1 : Nat) : Int) := by push_cast; ring
      by_cases hd : s0.isDone = true
      · have hd1 : s0.turn_ = END_TURN := by simpa [MazeState.isDone] using hd
        simp only [hd, if_true, List.length_singleton]
        push_cast at hturn
        refine ⟨?_, _, rfl⟩
        split <;> omega
      · have hd1 : s0.turn_ ≠ END_TURN := by simpa [MazeState.isDone] using hd
        simp only [hd, Bool.false_eq_true, if_false, Run.after, List.length_cons, hc]
        obtain ⟨h1, h2⟩ := ih (k + 1) _ hnn hnode
        refine ⟨?_, h2⟩
        rw [h1]
        push_cast at hturn ⊢
        split <;> split <;> omega

/-- Once the budget covers the remaining turns, more rounds change nothing in variant C. -/
theorem roundsC_stable (nth : NthElement) (w : Int) (init : MazeState) :
    ∀ (n k : Nat) (now : List MazeState),
      (∀ x ∈ now, Node init k x) → init.turn_ + k < END_TURN →
      (END_TURN - init.turn_ - k).toNat ≤ n →
      roundsC nth w n (k : Int) now =
        roundsC nth w (END_TURN - init.turn_ - k).toNat (k : Int) now := by
  intro n
  induction n with
  | zero => intro k now _ h1 h2; omega
  | succ n ih =>
    intro k now hn h1 h2
    have hnode := roundC_node nth w init k now hn
    obtain ⟨m, hm⟩ : ∃ m, (END_TURN - init.turn_ - k).toNat = m + 1 :=
      ⟨(END_TURN - init.turn_ - k).toNat - 1, by omega⟩
    have hc : ((k : Int) + 1) = ((k + 1 : Nat) : Int) := by push_cast; ring
    rw [hm, roundsC_succ, roundsC_succ]
    cases hs : selectC nth w (expandC (k : Int) now) with
    | nil => rfl
    | cons s0 rest =>
      rw [hs] at hnode
      have hturn := node_turn init (k + 1) s0 (hnode s0 (List.mem_cons_self _ _))
      by_cases hd : s0.isDone = true
      · simp [hd]
      · have hd1 : s0.turn_ ≠ END_TURN := by simpa [MazeState.isDone] using hd
        simp only [hd, Bool.false_eq_true, if_false, hc]
        push_cast at hturn
        have hm1 : (END_TURN - init.turn_ - ((k + 1 : Nat) : Int)).toNat = m := by
          push_cast; omega
        rw [ih (k + 1) _ hnode (by push_cast; omega) (by rw [hm1]; omega), hm1]

end BeamSearchWithTime

namespace BeamSearchWithTime

/-! ## The initial frontier and the result of variant A -/

theorem init_queue (pq : PriorityQueue) (s : MazeState) :
    pq.push [] s ≠ [] ∧ ∀ x ∈ pq.push [] s, Node s 0 x := by
  have hp := pq.push_perm [] s
  refine ⟨?_, ?_⟩
  · intro h
    rw [h] at hp
    exact List.cons_ne_nil _ _ hp.symm.eq_nil
  · intro x hx
    have := hp.subset hx
    simpa [Node] using this

theorem mem_legalActions_range (s : MazeState) (a : Int) (h : a ∈ s.legalActions) :
    0 ≤ a ∧ a ≤ 3 := by
  rw [mem_legalActions] at h
  omega

/-- From the initial queue, with `beam_width ≥ 1` and at least one round, variant A
returns the `first_action_` of a best state of its last frontier, and that action is
legal in the initial state. -/
theorem roundsA_best (pq : PriorityQueue) (w : Int) (hw : 1 ≤ w) (init : MazeState)
    (hi : init.inGrid) (n : Nat) (hn : 1 ≤ n) (best : MazeState) :
    ∃ b fr, (roundsA pq w n 0 (pq.push [] init) best).frontiers.getLast? = some fr ∧
      b ∈ fr ∧ (∀ x ∈ fr, x.evaluated_score_ ≤ b.evaluated_score_) ∧
      (roundsA pq w n 0 (pq.push [] init) best).outcome = .ret b.first_action_ ∧
      b.first_action_ ∈ init.legalActions := by
  obtain ⟨m, rfl⟩ : ∃ m, n = m + 1 := ⟨n - 1, by omega⟩
  obtain ⟨hne, hnode⟩ := init_queue pq init
  obtain ⟨b, fr, h1, h2, h3, h4, _⟩ :=
    roundsA_result pq w hw init hi m 0 (pq.push [] init) best hne hnode
  refine ⟨b, fr, h1, h2, h3, h4, ?_⟩
  rw [List.getLast?_eq_getElem?] at h1
  have := (roundsA_frontiers pq w init (m + 1) 0 (pq.push [] init) best hnode _ fr h1).1 b h2
  exact node_first_action init _ b this

end BeamSearchWithTime

namespace BeamSearchWithTime

/-! ## Runs from the initial state -/

theorem runB_first_poll (pq : PriorityQueue) (clock : Nat → Int) (s : MazeState) (w : Int)
    (hw : 1 ≤ w) (thr : Int) (fuel : Nat) (h : thr ≤ clock 0) :
    runB pq clock s w thr (fuel + 1) = ⟨.ret (-1), [], true⟩ := by
  obtain ⟨m, hm⟩ : ∃ m, w.toNat = m + 1 := ⟨w.toNat - 1, by omega⟩
  have ht : TimeKeeper.isTimeOver ⟨thr⟩ (clock 0) = true := by
    simpa [TimeKeeper.isTimeOver] using h
  unfold runB
  rw [roundsB_succ, hm, expandB_first_poll pq _ clock 0 m 0 _ _ ht]
  rfl

theorem runA_length (pq : PriorityQueue) (s : MazeState) (hi : s.inGrid) (w d : Int)
    (hw : 1 ≤ w) :
    (runA pq s w d).frontiers.length =
      if s.turn_ < END_TURN then min d.toNat (END_TURN - s.turn_).toNat else d.toNat := by
  obtain ⟨hne, hnode⟩ := init_queue pq s
  have := roundsA_length pq w hw s hi d.toNat 0 (pq.push [] s) defaultState hne hnode
  simpa [runA] using this

theorem runC_length (nth : NthElement) (s : MazeState) (hi : s.inGrid) (w d : Int)
    (hw : 1 ≤ w) :
    (runC nth s w d).frontiers.length =
      (if s.turn_ < END_TURN then min d.toNat (END_TURN - s.turn_).toNat else d.toNat) ∧
    ∃ a, (runC nth s w d).outcome = .ret a := by
  have := roundsC_length nth w hw s hi d.toNat 0 [s] (by simp) (by simp [Node])
  simpa [runC] using this

end BeamSearchWithTime

namespace BeamSearchWithTime

/-! ## C1: an already-terminal initial state -/

/-- C2: for a non-terminal initial state with the agent inside the grid,
`beam_width ≥ 1` and `beam_depth ≥ 1`, `beamSearchAction` returns the `first_action_` of
a state of maximal `evaluated_score_` among all candidates generated in the last round
it executed (the last frontier, a rearrangement of all successors of the states popped
from the frontier before it); that action is a member of `legalActions(initial state)`
and is not the sentinel `-1`. -/
theorem C2_variantA_result (pq : PriorityQueue) (s : MazeState) (w d : Int)
    (_hnt : s.turn_ ≠ END_TURN) (hi : s.inGrid) (hw : 1 ≤ w) (hd : 1 ≤ d) :
    ∃ best fr prev i, (runA pq s w d).frontiers.getLast? = some fr ∧
      (runA pq s w d).frontiers.length = i + 1 ∧
      (pq.push [] s :: (runA pq s w d).frontiers)[i]? = some prev ∧
      List.Perm fr (candidates (i : Int) (popped pq w.toNat prev)) ∧
      best ∈ fr ∧ (∀ x ∈ fr, x.evaluated_score_ ≤ best.evaluated_score_) ∧
      beamSearchAction pq s w d = .ret best.first_action_ ∧
      best.first_action_ ∈ s.legalActions ∧ best.first_action_ ≠ -1 := by
  obtain ⟨b, fr, h1, h2, h3, h4, h5⟩ :=
    roundsA_best pq w hw s hi d.toNat (by omega) defaultState
  have hr := mem_legalActions_range s _ h5
  have h6 := h1
  rw [List.getLast?_eq_getElem?] at h6
  have hlen : 0 < (runA pq s w d).frontiers.length := by
    rcases Nat.eq_zero_or_pos (runA pq s w d).frontiers.length with h0 | h0
    · have hnil := List.length_eq_zero.1 h0
      unfold runA at hnil
      rw [hnil] at h1
      simp at h1
    · exact h0
  obtain ⟨prev, h7, _, h9⟩ :=
    roundsA_round pq w d.toNat 0 (pq.push [] s) defaultState _ fr h6
  simp only [Nat.zero_add] at h9
  exact ⟨b, fr, prev, (runA pq s w d).frontiers.length - 1, h1, by omega, h7, h9, h2, h3, h4,
    h5, by omega⟩

/-- C2, witness: a state in the middle of the grid with a reward below the agent. -/
theorem C2_witness :
    ∃ best fr prev i, (runA listPQ (mkState 0 1 1 2 1 5) 2 3).frontiers.getLast? = some fr ∧
      (runA listPQ (mkState 0 1 1 2 1 5) 2 3).frontiers.length = i + 1 ∧
      (listPQ.push [] (mkState 0 1 1 2 1 5)
        :: (runA listPQ (mkState 0 1 1 2 1 5) 2 3).frontiers)[i]? = some prev ∧
      List.Perm fr (candidates (i : Int) (popped listPQ (2 : Int).toNat prev)) ∧
      best ∈ fr ∧ (∀ x ∈ fr, x.evaluated_score_ ≤ best.evaluated_score_) ∧
      beamSearchAction listPQ (mkState 0 1 1 2 1 5) 2 3 = .ret best.first_action_ ∧
      best.first_action_ ∈ (mkState 0 1 1 2 1 5).legalActions ∧ best.first_action_ ≠ -1 :=
  C2_variantA_result listPQ (mkState 0 1 1 2 1 5) 2 3 (by decide) (by decide) (by decide)
    (by decide)

end BeamSearchWithTime

namespace BeamSearchWithTime

/-! ## C3: the result of variant C -/

theorem pickBest_foldl_le (l : List MazeState) :
    ∀ best : MazeState, (∀ x ∈ l, x.evaluated_score_ ≤ best.evaluated_score_) →
      l.foldl (fun best_state now_state =>
        if now_state.evaluated_score_ > best_state.evaluated_score_ then now_state
        else best_state) best = best := by
  induction l with
  | nil => intro best _; rfl
  | cons y l ih =>
    intro best h
    have hy := h y (List.mem_cons_self _ _)
    simp only [List.foldl_cons]
    rw [if_neg (by omega)]
    exact ih best (fun x hx => h x (List.mem_cons_of_mem _ hx))

/-- If no state of the final frontier has a positive score, the final loop of variant C
keeps the default-constructed `best_state`. -/
theorem pickBest_default (l : List MazeState) (h : ∀ x ∈ l, x.evaluated_score_ ≤ 0) :
    pickBest l = defaultState :=
  pickBest_foldl_le l defaultState h

/-- C3, the code at the failing input: on the default-constructed state (turn `0`, agent
at `(0, 0)`, no rewards; legal actions `0` and `2`) with `beam_width = 1` and
`beam_depth = 1`, `beamSearchActionByNthElement` returns the sentinel `-1` for every
conforming `nth_element`: every state of the final frontier has `evaluated_score_ = 0`,
which is not greater than the score of the default `best_state`. -/
theorem C3_sentinel_on_zero_scores (nth : NthElement) :
    defaultState.turn_ ≠ END_TURN ∧ defaultState.inGrid ∧
    defaultState.legalActions = [0, 2] ∧
    beamSearchActionByNthElement nth defaultState 1 1 = .ret (-1) := by
  refine ⟨by decide, by decide, by decide, ?_⟩
  have hc : ∀ x ∈ selectC nth 1 (expandC 0 [defaultState]),
      x.turn_ = 1 ∧ x.evaluated_score_ = 0 := by
    intro x hx
    have hx1 := selectC_subset nth 1 _ x hx
    have he : expandC 0 [defaultState]
        = [nextState 0 defaultState 0, nextState 0 defaultState 2] := by
      rw [expandC_eq]
      rfl
    rw [he] at hx1
    simp only [List.mem_cons, List.mem_singleton, List.not_mem_nil, or_false] at hx1
    rcases hx1 with rfl | rfl <;> exact ⟨rfl, rfl⟩
  have hne := roundC_ne_nil nth 1 (le_refl _) 0 [defaultState] (by simp)
    (by intro s hs; simp at hs; subst hs; decide)
  have hrun : runC nth defaultState 1 1 = roundsC nth 1 1 0 [defaultState] := rfl
  unfold beamSearchActionByNthElement
  rw [hrun, roundsC_succ]
  cases hs : selectC nth 1 (expandC 0 [defaultState]) with
  | nil => exact absurd hs hne
  | cons s0 rest =>
    rw [hs] at hc
    have h0 := hc s0 (List.mem_cons_self _ _)
    have hd : s0.isDone = false := by
      simp [MazeState.isDone, h0.1, END_TURN]
    simp only [hd, Bool.false_eq_true, if_false, Run.after, roundsC_zero]
    rw [pickBest_default _ (fun x hx => le_of_eq (hc x hx).2)]
    rfl

end BeamSearchWithTime

namespace BeamSearchWithTime

/-! ## C4: the selection step of variant C -/

/-- Every frontier recorded by variant C is the selection step applied to the candidates
generated from the frontier before it. -/
theorem roundsC_round (nth : NthElement) (w : Int) :
    ∀ (n k : Nat) (now : List MazeState) (i : Nat) (fr : List MazeState),
      (roundsC nth w n (k : Int) now).frontiers[i]? = some fr →
      ∃ prev, (now :: (roundsC nth w n (k : Int) now).frontiers)[i]? = some prev ∧
        fr = selectC nth w (expandC ((k + i : Nat) : Int) prev) := by
  intro n
  induction n with
  | zero => intro k now i fr h; simp [roundsC_zero] at h
  | succ n ih =>
    intro k now i fr h
    rw [roundsC_succ] at h ⊢
    cases hs : selectC nth w (expandC (k : Int) now) with
    | nil =>
      rw [hs] at h
      cases i with
      | zero => simp at h; subst h; exact ⟨now, by simp, by simpa using hs.symm⟩
      | succ i => simp at h
    | cons s0 rest =>
      rw [hs] at h
      by_cases hd : s0.isDone = true
      · simp only [hd, if_true] at h ⊢
        cases i with
        | zero => simp at h; subst h; exact ⟨now, by simp, by simpa using hs.symm⟩
        | succ i => simp at h
      · simp only [hd, Bool.false_eq_true, if_false, Run.after] at h ⊢
        cases i with
        | zero => simp at h; subst h; exact ⟨now, by simp, by simpa using hs.symm⟩
        | succ i =>
          simp only [List.getElem?_cons_succ] at h ⊢
          have hc : ((k : Int) + 1) = ((k + 1 : Nat) : Int) := by push_cast; ring
          rw [hc] at h ⊢
          obtain ⟨prev, h1, h2⟩ := ih (k + 1) _ i fr h
          have he : k + (i + 1) = k + 1 + i := by omega
          rw [he]
          exact ⟨prev, h1, h2⟩

/-- C4: in every round of `beamSearchActionByNthElement` with `beam_width ≥ 1` (an
`int`), the frontier retained from the `n` generated candidates has exactly
`min(beam_width, n)` states; together with the discarded states it is a rearrangement of
the candidates (so it is a sub-multiset of them); every retained state has an
`evaluated_score_` at least that of every discarded one; and when `n ≤ beam_width` the
frontier is the candidate list unchanged. -/
theorem C4_selection_exact (nth : NthElement) (s : MazeState) (w d : Int)
    (hw : 1 ≤ w) (hm : w ≤ INT_MAX) (i : Nat) (fr : List MazeState)
    (h : (runC nth s w d).frontiers[i]? = some fr) :
    ∃ prev, ([s] :: (runC nth s w d).frontiers)[i]? = some prev ∧
      fr = selectC nth w (expandC (i : Int) prev) ∧
      (fr.length : Int) = min w ((expandC (i : Int) prev).length : Int) ∧
      (∃ discarded, List.Perm (fr ++ discarded) (expandC (i : Int) prev) ∧
        ∀ a ∈ fr, ∀ b ∈ discarded, b.evaluated_score_ ≤ a.evaluated_score_) ∧
      (((expandC (i : Int) prev).length : Int) ≤ w → fr = expandC (i : Int) prev) := by
  unfold runC at h ⊢
  obtain ⟨prev, h1, h2⟩ := roundsC_round nth w d.toNat 0 [s] i fr h
  simp only [Nat.zero_add] at h2
  refine ⟨prev, h1, h2, ?_, ?_, ?_⟩
  · rw [h2, selectC_length nth w (by omega)]
    omega
  · rw [h2]
    exact selectC_split nth w _
  · intro hl
    rw [h2]
    exact selectC_id nth w (by omega) hm _ hl

/-- C4, witness: round `1` of a search of width `2` from the middle of the grid. -/
theorem C4_witness :
    ∃ prev, ([mkState 0 1 1 2 1 5] :: (runC sortNth (mkState 0 1 1 2 1 5) 2 3).frontiers)[1]?
        = some prev ∧
      (((runC sortNth (mkState 0 1 1 2 1 5) 2 3).frontiers).getD 1 [])
        = selectC sortNth 2 (expandC ((1 : Nat) : Int) prev) ∧
      (((((runC sortNth (mkState 0 1 1 2 1 5) 2 3).frontiers).getD 1 []).length : Nat) : Int)
        = min 2 ((expandC ((1 : Nat) : Int) prev).length : Int) ∧
      (∃ discarded,
        List.Perm ((((runC sortNth (mkState 0 1 1 2 1 5) 2 3).frontiers).getD 1 []) ++ discarded)
          (expandC ((1 : Nat) : Int) prev) ∧
        ∀ a ∈ (((runC sortNth (mkState 0 1 1 2 1 5) 2 3).frontiers).getD 1 []),
          ∀ b ∈ discarded, b.evaluated_score_ ≤ a.evaluated_score_) ∧
      (((expandC ((1 : Nat) : Int) prev).length : Int) ≤ 2 →
        (((runC sortNth (mkState 0 1 1 2 1 5) 2 3).frontiers).getD 1 [])
          = expandC ((1 : Nat) : Int) prev) :=
  C4_selection_exact sortNth (mkState 0 1 1 2 1 5) 2 3 (by decide) (by decide) 1
    (((runC sortNth (mkState 0 1 1 2 1 5) 2 3).frontiers).getD 1 []) (by rfl)

end BeamSearchWithTime

namespace BeamSearchWithTime

/-! ## C5: the width of the frontier -/

/-- C5, counterexample: with `beam_width = 1`, from a state in the middle of the grid,
the frontier that `beamSearchAction` (two rounds) and
`beamSearchActionWithTimeThreshold` (clock expiring at the third poll) carry into the
next round holds four states. -/
theorem C5_counterexample :
    (runA listPQ (mkState 0 1 1 2 1 5) 1 2).frontiers.map List.length = [4, 4] ∧
    (runB listPQ (fun p => (p : Int)) (mkState 0 1 1 2 1 5) 1 2 5).frontiers.map List.length
      = [4, 4] := by
  decide

/-- C5, amended: for every initial state and `beam_width ≥ 1`, the frontier that
`beamSearchActionByNthElement` carries into the next round never holds more than
`beam_width` states; the frontier of `beamSearchAction` and of
`beamSearchActionWithTimeThreshold` holds every successor of the at most `beam_width`
states expanded in the round, hence never more than `4 * beam_width` states. -/
theorem C5_width_bound_amended (pq : PriorityQueue) (nth : NthElement) (clock : Nat → Int)
    (s : MazeState) (w d thr : Int) (fuel : Nat) (hw : 1 ≤ w) :
    (∀ fr ∈ (runC nth s w d).frontiers, (fr.length : Int) ≤ w) ∧
    (∀ fr ∈ (runA pq s w d).frontiers, (fr.length : Int) ≤ 4 * w) ∧
    (∀ fr ∈ (runB pq clock s w thr fuel).frontiers, (fr.length : Int) ≤ 4 * w) := by
  have hA : ∀ n, ∀ fr ∈ (roundsA pq w n 0 (pq.push [] s) defaultState).frontiers,
      (fr.length : Int) ≤ 4 * w := by
    intro n fr hfr
    obtain ⟨i, hi⟩ := List.mem_iff_getElem?.1 hfr
    have := (roundsA_frontiers pq w s n 0 _ defaultState (init_queue pq s).2 i fr hi).2
    omega
  refine ⟨?_, hA _, ?_⟩
  · intro fr hfr
    obtain ⟨i, hi⟩ := List.mem_iff_getElem?.1 hfr
    have := (roundsC_frontiers nth w s d.toNat 0 [s] (by simp [Node]) i fr hi).2 (by omega)
    omega
  · intro fr hfr
    unfold runB at hfr
    rw [← roundsB_frontiers] at hfr
    exact hA _ fr hfr

/-- C5, witness of the amended bound at the runs of the counterexample. -/
theorem C5_witness :
    (∀ fr ∈ (runC sortNth (mkState 0 1 1 2 1 5) 1 2).frontiers, (fr.length : Int) ≤ 1) ∧
    (∀ fr ∈ (runA listPQ (mkState 0 1 1 2 1 5) 1 2).frontiers, (fr.length : Int) ≤ 4 * 1) ∧
    (∀ fr ∈ (runB listPQ (fun p => (p : Int)) (mkState 0 1 1 2 1 5) 1 2 5).frontiers,
      (fr.length : Int) ≤ 4 * 1) :=
  C5_width_bound_amended listPQ sortNth (fun p => (p : Int)) (mkState 0 1 1 2 1 5) 1 2 2 5
    (by decide)

end BeamSearchWithTime

namespace BeamSearchWithTime

/-! ## C6: propagation of the first action -/

theorem advanceAll_append (s : MazeState) (l : List Int) (b : Int) :
    advanceAll s (l ++ [b]) = (advanceAll s l).advance b := by
  simp [advanceAll, List.foldl_append]

theorem legalPath_append (l : List Int) (b : Int) :
    ∀ s : MazeState, LegalPath s l → b ∈ (advanceAll s l).legalActions →
      LegalPath s (l ++ [b]) := by
  induction l with
  | nil => intro s _ hb; exact ⟨hb, trivial⟩
  | cons a l ih =>
    intro s h hb
    exact ⟨h.1, ih (s.advance a) h.2 hb⟩

/-- A node of level `k + 1` is the initial state advanced along `k + 1` legal actions,
scored, and stamped with the first of these actions. -/
theorem node_path (init : MazeState) :
    ∀ (k : Nat) (x : MazeState), Node init (k + 1) x →
      ∃ a as, as.length = k ∧ LegalPath init (a :: as) ∧
        x = { (advanceAll init (a :: as)).evaluateScore with first_action_ := a } := by
  intro k
  induction k with
  | zero =>
    intro x h
    obtain ⟨p, a, hp, ha, rfl⟩ := h
    simp only [Node] at hp
    subst hp
    exact ⟨a, [], rfl, ⟨ha, trivial⟩, rfl⟩
  | succ k ih =>
    intro x h
    obtain ⟨p, b, hp, hb, rfl⟩ := h
    obtain ⟨a, as, hlen, hlegal, rfl⟩ := ih p hp
    refine ⟨a, as ++ [b], by simp [hlen], ?_, ?_⟩
    · exact legalPath_append (a :: as) b init hlegal hb
    · have hk : ((k + 1 : Nat) : Int) ≠ 0 := by omega
      have he : advanceAll init (a :: (as ++ [b]))
          = (advanceAll init (a :: as)).advance b := advanceAll_append init (a :: as) b
      rw [he]
      unfold nextState
      rw [if_neg hk]
      rfl

/-- C6: in every variant, every state of the frontier after round `t` is the initial
state advanced along `t + 1` actions `a_0, ..., a_t`, each legal in the state it is
applied to, then scored by `evaluateScore`, and its `first_action_` is `a_0`;
an expansion in a round `r ≥ 1` leaves `first_action_` as it was. -/
theorem C6_first_action_propagation (pq : PriorityQueue) (nth : NthElement)
    (clock : Nat → Int) (s : MazeState) (w d thr : Int) (fuel : Nat) (t : Nat)
    (fr : List MazeState) (x : MazeState)
    (h : (runA pq s w d).frontiers[t]? = some fr ∨
      (runB pq clock s w thr fuel).frontiers[t]? = some fr ∨
      (runC nth s w d).frontiers[t]? = some fr)
    (hx : x ∈ fr) :
    (∃ a as, as.length = t ∧ LegalPath s (a :: as) ∧
      x = { (advanceAll s (a :: as)).evaluateScore with first_action_ := a } ∧
      x.first_action_ = a) ∧
    (∀ (r : Int) (p : MazeState) (b : Int), 1 ≤ r →
      (nextState r p b).first_action_ = p.first_action_) := by
  have hA : ∀ n, (roundsA pq w n 0 (pq.push [] s) defaultState).frontiers[t]? = some fr →
      Node s (t + 1) x := by
    intro n hn
    have := (roundsA_frontiers pq w s n 0 _ defaultState (init_queue pq s).2 t fr hn).1 x hx
    simpa using this
  have hnode : Node s (t + 1) x := by
    rcases h with h | h | h
    · exact hA _ h
    · unfold runB at h
      rw [← roundsB_frontiers] at h
      exact hA _ h
    · have := (roundsC_frontiers nth w s d.toNat 0 [s] (by simp [Node]) t fr h).1 x hx
      simpa using this
  refine ⟨?_, ?_⟩
  · obtain ⟨a, as, h1, h2, h3⟩ := node_path s t x hnode
    exact ⟨a, as, h1, h2, h3, by rw [h3]⟩
  · intro r p b hr
    rw [nextState_first_action, if_neg (by omega)]

/-- C6, witness: the first state of the frontier after round `0` of variant C. -/
theorem C6_witness :
    (∃ a as, as.length = 0 ∧ LegalPath (mkState 0 1 1 2 1 5) (a :: as) ∧
      nextState 0 (mkState 0 1 1 2 1 5) 0 =
        { (advanceAll (mkState 0 1 1 2 1 5) (a :: as)).evaluateScore
          with first_action_ := a } ∧
      (nextState 0 (mkState 0 1 1 2 1 5) 0).first_action_ = a) ∧
    (∀ (r : Int) (p : MazeState) (b : Int), 1 ≤ r →
      (nextState r p b).first_action_ = p.first_action_) :=
  C6_first_action_propagation listPQ sortNth (fun _ => 0) (mkState 0 1 1 2 1 5) 4 1 0 0 0
    [nextState 0 (mkState 0 1 1 2 1 5) 0, nextState 0 (mkState 0 1 1 2 1 5) 1,
      nextState 0 (mkState 0 1 1 2 1 5) 2, nextState 0 (mkState 0 1 1 2 1 5) 3]
    (nextState 0 (mkState 0 1 1 2 1 5) 0) (Or.inr (Or.inr (by rfl)))
    (List.mem_cons_self _ _)

end BeamSearchWithTime

namespace BeamSearchWithTime

/-! ## C7: a time budget that is over at the first poll -/

/-- C7: for every initial state and `beam_width ≥ 1`, with `time_threshold = 0` and a
non-negative elapsed time `isTimeOver` is true at its first poll and
`beamSearchActionWithTimeThreshold` returns the sentinel `-1` through the time-over
return, before any round is completed; more generally it does so whenever `isTimeOver`
is true at the first poll. -/
theorem C7_zero_time_budget (pq : PriorityQueue) (clock : Nat → Int) (s : MazeState)
    (w : Int) (fuel : Nat) (hw : 1 ≤ w) (h0 : 0 ≤ clock 0) :
    TimeKeeper.isTimeOver ⟨0⟩ (clock 0) = true ∧
    beamSearchActionWithTimeThreshold pq clock s w 0 (fuel + 1) = .ret (-1) ∧
    runB pq clock s w 0 (fuel + 1) = ⟨.ret (-1), [], true⟩ ∧
    (∀ thr : Int, TimeKeeper.isTimeOver ⟨thr⟩ (clock 0) = true →
      beamSearchActionWithTimeThreshold pq clock s w thr (fuel + 1) = .ret (-1) ∧
      runB pq clock s w thr (fuel + 1) = ⟨.ret (-1), [], true⟩) := by
  have h1 := runB_first_poll pq clock s w hw 0 fuel h0
  refine ⟨by simpa [TimeKeeper.isTimeOver] using h0, ?_, h1, ?_⟩
  · unfold beamSearchActionWithTimeThreshold
    rw [h1]
  · intro thr hthr
    have hle : thr ≤ clock 0 := by simpa [TimeKeeper.isTimeOver] using hthr
    have h2 := runB_first_poll pq clock s w hw thr fuel hle
    refine ⟨?_, h2⟩
    unfold beamSearchActionWithTimeThreshold
    rw [h2]

/-- C7, witness: budget `0`, width `3`, a clock reading `0` ms at every poll. -/
theorem C7_witness :
    TimeKeeper.isTimeOver ⟨0⟩ ((fun _ : Nat => (0 : Int)) 0) = true ∧
    beamSearchActionWithTimeThreshold listPQ (fun _ => 0) (mkState 0 1 1 2 1 5) 3 0 (9 + 1)
      = .ret (-1) ∧
    runB listPQ (fun _ => 0) (mkState 0 1 1 2 1 5) 3 0 (9 + 1) = ⟨.ret (-1), [], true⟩ ∧
    (∀ thr : Int, TimeKeeper.isTimeOver ⟨thr⟩ ((fun _ : Nat => (0 : Int)) 0) = true →
      beamSearchActionWithTimeThreshold listPQ (fun _ => 0) (mkState 0 1 1 2 1 5) 3 thr
        (9 + 1) = .ret (-1) ∧
      runB listPQ (fun _ => 0) (mkState 0 1 1 2 1 5) 3 thr (9 + 1) = ⟨.ret (-1), [], true⟩) :=
  C7_zero_time_budget listPQ (fun _ => 0) (mkState 0 1 1 2 1 5) 3 9 (by decide) (by decide)

/-! ## C8: configurations with a non-positive width or depth -/

/-- C8, counterexample: on the default-constructed state, `beam_width = 0` with
`beam_depth = 1` is not rejected: `beamSearchAction` and
`beamSearchActionWithTimeThreshold` read `top()` of an empty queue and
`beamSearchActionByNthElement` reads `now_beam[0]` of an empty vector; with
`beam_width = -1`, `beamSearchAction` does the same and `beamSearchActionByNthElement`
returns the valid action `0` instead of a rejection. -/
theorem C8_counterexample :
    beamSearchAction listPQ defaultState 0 1 = .undefined ∧
    beamSearchAction listPQ defaultState (-1) 3 = .undefined ∧
    beamSearchActionWithTimeThreshold listPQ (fun _ => 0) defaultState 0 5 1 = .undefined ∧
    beamSearchActionByNthElement sortNth defaultState 0 1 = .undefined ∧
    beamSearchActionByNthElement sortNth (mkState 0 0 0 0 1 5) (-1) 1 = .ret 0 := by
  decide

/-- C8, amended: the configuration is not validated.  If `beam_depth ≤ 0`, no round is
executed: `beamSearchAction` returns `-1`, and `beamSearchActionByNthElement` returns the
`first_action_` of the initial state when its `evaluated_score_` is positive and `-1`
otherwise (so `-1` whenever the initial `first_action_` is `-1`).  If `beam_width ≤ 0`
there is no rejection: with `beam_depth ≥ 1`, `beamSearchAction` expands no state and
reads `top()` of the empty frontier, and so does `beamSearchActionWithTimeThreshold`;
`beamSearchActionByNthElement` with `beam_width = 0` reads element `0` of the empty
frontier, and with a negative `int` `beam_width` its selection step keeps every candidate
list shorter than `2 ^ 63`. -/
theorem C8_invalid_configuration_amended (pq : PriorityQueue) (nth : NthElement)
    (clock : Nat → Int) (s : MazeState) (w d thr : Int) (fuel : Nat) :
    (d ≤ 0 → runA pq s w d = ⟨.ret (-1), [], false⟩) ∧
    (d ≤ 0 → runC nth s w d =
      ⟨.ret (if s.evaluated_score_ > 0 then s.first_action_ else -1), [], false⟩) ∧
    (d ≤ 0 → s.first_action_ = -1 → beamSearchActionByNthElement nth s w d = .ret (-1)) ∧
    (w ≤ 0 → 1 ≤ d → runA pq s w d = ⟨.undefined, [[]], false⟩) ∧
    (w ≤ 0 → runB pq clock s w thr (fuel + 1) = ⟨.undefined, [[]], false⟩) ∧
    (w = 0 → 1 ≤ d → runC nth s w d = ⟨.undefined, [[]], false⟩) ∧
    (w < 0 → -2147483648 ≤ w → ∀ l : List MazeState, l.length < 2 ^ 63 →
      selectC nth w l = l) := by
  have hpick : (pickBest [s]).first_action_
      = if s.evaluated_score_ > 0 then s.first_action_ else -1 := by
    unfold pickBest
    simp only [List.foldl_cons, List.foldl_nil]
    have hdef : defaultState.evaluated_score_ = 0 := rfl
    rw [hdef]
    split <;> rfl
  refine ⟨?_, ?_, ?_, ?_, ?_, ?_, ?_⟩
  · intro hd
    have : d.toNat = 0 := by omega
    simp only [runA, this, roundsA_zero]
    rfl
  · intro hd
    have : d.toNat = 0 := by omega
    simp only [runC, this, roundsC_zero, hpick]
  · intro hd hf
    have : d.toNat = 0 := by omega
    simp only [beamSearchActionByNthElement, runC, this, roundsC_zero, hpick, hf]
    split <;> rfl
  · intro hw hd
    obtain ⟨m, hm⟩ : ∃ m, d.toNat = m + 1 := ⟨d.toNat - 1, by omega⟩
    have hw0 : w.toNat = 0 := by omega
    simp only [runA, hm, roundsA_succ, hw0, expandA, pq.top_nil]
  · intro hw
    have hw0 : w.toNat = 0 := by omega
    simp only [runB, roundsB_succ, hw0, expandB, pq.top_nil]
  · intro hw hd
    obtain ⟨m, hm⟩ : ∃ m, d.toNat = m + 1 := ⟨d.toNat - 1, by omega⟩
    have hsel : selectC nth w (expandC 0 [s]) = [] := by
      have := selectC_length nth w (by omega) (expandC 0 [s])
      rw [hw] at this ⊢
      simpa using this
    simp only [runC, hm, roundsC_succ, hsel]
  · intro hw hmin l hl
    unfold selectC
    rw [if_neg]
    have : w % 2 ^ 64 = w + 2 ^ 64 := by omega
    omega

/-- C8, witness of the amended statement on the inputs of the counterexample. -/
theorem C8_witness :
    runA listPQ defaultState 1 0 = ⟨.ret (-1), [], false⟩ ∧
    beamSearchActionByNthElement sortNth defaultState 1 0 = .ret (-1) ∧
    runA listPQ defaultState 0 1 = ⟨.undefined, [[]], false⟩ ∧
    runB listPQ (fun _ => 0) defaultState 0 5 (0 + 1) = ⟨.undefined, [[]], false⟩ ∧
    runC sortNth defaultState 0 1 = ⟨.undefined, [[]], false⟩ :=
  ⟨(C8_invalid_configuration_amended listPQ sortNth (fun _ => 0) defaultState 1 0 5 0).1
      (by decide),
    (C8_invalid_configuration_amended listPQ sortNth (fun _ => 0) defaultState 1 0 5 0).2.2.1
      (by decide) (by decide),
    (C8_invalid_configuration_amended listPQ sortNth (fun _ => 0) defaultState 0 1 5 0).2.2.2.1
      (by decide) (by decide),
    (C8_invalid_configuration_amended listPQ sortNth (fun _ => 0) defaultState 0 1 5 0).2.2.2.2.1
      (by decide),
    (C8_invalid_configuration_amended listPQ sortNth (fun _ => 0) defaultState 0 1 5
      0).2.2.2.2.2.1 (by decide) (by decide)⟩

end BeamSearchWithTime

namespace BeamSearchWithTime

/-! ## C9: the number of rounds of the depth-bounded variants -/

/-- C9: for an initial state with the agent inside the grid and `turn_ < END_TURN`,
`beam_width ≥ 1` and `beam_depth ≥ 1`, `beamSearchAction` and
`beamSearchActionByNthElement` return after exactly `min(beam_depth, END_TURN - turn_)`
expansion rounds; the states of the frontier after round `i` have
`turn_ = initial turn_ + i + 1`, so the early stop happens exactly at the round whose
frontier is terminal; and for every `beam_depth ≥ END_TURN - turn_` the result is the one
for `beam_depth = END_TURN - turn_`. -/
theorem C9_round_count (pq : PriorityQueue) (nth : NthElement) (s : MazeState) (w d : Int)
    (hi : s.inGrid) (ht : s.turn_ < END_TURN) (hw : 1 ≤ w) (hd : 1 ≤ d) :
    ((runA pq s w d).frontiers.length : Int) = min d (END_TURN - s.turn_) ∧
    (∃ a, beamSearchAction pq s w d = .ret a) ∧
    ((runC nth s w d).frontiers.length : Int) = min d (END_TURN - s.turn_) ∧
    (∃ a, beamSearchActionByNthElement nth s w d = .ret a) ∧
    (∀ (i : Nat) (fr : List MazeState),
      (runA pq s w d).frontiers[i]? = some fr ∨ (runC nth s w d).frontiers[i]? = some fr →
      ∀ x ∈ fr, x.turn_ = s.turn_ + i + 1 ∧
        (x.isDone = true ↔ (i : Int) + 1 = END_TURN - s.turn_)) ∧
    (∀ d2 : Int, END_TURN - s.turn_ ≤ d2 →
      beamSearchAction pq s w d2 = beamSearchAction pq s w (END_TURN - s.turn_) ∧
      beamSearchActionByNthElement nth s w d2
        = beamSearchActionByNthElement nth s w (END_TURN - s.turn_)) := by
  obtain ⟨hne, hnode⟩ := init_queue pq s
  have hC : ∀ x ∈ [s], Node s 0 x := by simp [Node]
  refine ⟨?_, ?_, ?_, ?_, ?_, ?_⟩
  · rw [runA_length pq s hi w d hw, if_pos ht]
    omega
  · obtain ⟨b, _, _, _, _, h, _⟩ := roundsA_best pq w hw s hi d.toNat (by omega) defaultState
    exact ⟨_, h⟩
  · rw [(runC_length nth s hi w d hw).1, if_pos ht]
    omega
  · exact (runC_length nth s hi w d hw).2
  · intro i fr h x hx
    have hn : Node s (i + 1) x := by
      rcases h with h | h
      · simpa using (roundsA_frontiers pq w s d.toNat 0 _ defaultState hnode i fr h).1 x hx
      · simpa using (roundsC_frontiers nth w s d.toNat 0 [s] hC i fr h).1 x hx
    have hturn := node_turn s (i + 1) x hn
    push_cast at hturn
    refine ⟨by omega, ?_⟩
    simp only [MazeState.isDone, decide_eq_true_eq]
    omega
  · intro d2 hd2
    have h0 : s.turn_ + ((0 : Nat) : Int) < END_TURN := by simpa using ht
    have hA := roundsA_stable pq w s d2.toNat 0 (pq.push [] s) defaultState hnode h0
      (by push_cast; omega)
    have hCs := roundsC_stable nth w s d2.toNat 0 [s] hC h0 (by push_cast; omega)
    simp only [Nat.cast_zero, sub_zero] at hA hCs
    constructor
    · unfold beamSearchAction runA
      rw [hA]
    · unfold beamSearchActionByNthElement runC
      rw [hCs]

/-- C9, witness: three turns before the end, depth `5`, width `1`. -/
theorem C9_witness :
    ((runA listPQ (mkState 7 1 1 2 1 5) 1 5).frontiers.length : Int)
      = min 5 (END_TURN - (mkState 7 1 1 2 1 5).turn_) ∧
    (∃ a, beamSearchAction listPQ (mkState 7 1 1 2 1 5) 1 5 = .ret a) ∧
    ((runC sortNth (mkState 7 1 1 2 1 5) 1 5).frontiers.length : Int)
      = min 5 (END_TURN - (mkState 7 1 1 2 1 5).turn_) ∧
    (∃ a, beamSearchActionByNthElement sortNth (mkState 7 1 1 2 1 5) 1 5 = .ret a) ∧
    (∀ (i : Nat) (fr : List MazeState),
      (runA listPQ (mkState 7 1 1 2 1 5) 1 5).frontiers[i]? = some fr ∨
        (runC sortNth (mkState 7 1 1 2 1 5) 1 5).frontiers[i]? = some fr →
      ∀ x ∈ fr, x.turn_ = (mkState 7 1 1 2 1 5).turn_ + i + 1 ∧
        (x.isDone = true ↔ (i : Int) + 1 = END_TURN - (mkState 7 1 1 2 1 5).turn_)) ∧
    (∀ d2 : Int, END_TURN - (mkState 7 1 1 2 1 5).turn_ ≤ d2 →
      beamSearchAction listPQ (mkState 7 1 1 2 1 5) 1 d2
        = beamSearchAction listPQ (mkState 7 1 1 2 1 5) 1
            (END_TURN - (mkState 7 1 1 2 1 5).turn_) ∧
      beamSearchActionByNthElement sortNth (mkState 7 1 1 2 1 5) 1 d2
        = beamSearchActionByNthElement sortNth (mkState 7 1 1 2 1 5) 1
            (END_TURN - (mkState 7 1 1 2 1 5).turn_)) :=
  C9_round_count listPQ sortNth (mkState 7 1 1 2 1 5) 1 5 (by decide) (by decide) (by decide)
    (by decide)

end BeamSearchWithTime

namespace BeamSearchWithTime

/-! ## C10: variant B against variant A -/

end BeamSearchWithTime

namespace BeamSearchWithTime

/-! ## C11: the effect of `advance` -/

/-- C11: for a state with the agent inside the grid and an action of `legalActions`,
`advance` moves the agent by `(dx[action], dy[action])`; if the reward `r` of the entered
cell is positive it adds exactly `r` to `game_score_` and sets that cell to `0`, otherwise
`game_score_` and the grid are unchanged; every other cell keeps its value; and
`evaluated_score_` and `first_action_` are unchanged.  The same holds for `advance` of
`src/MazeState.cpp`, whose state has neither of the last two members. -/
theorem C11_advance_frame :
    (∀ (s : MazeState) (a : Int), s.inGrid → a ∈ s.legalActions →
      (s.advance a).character_.x_ = s.character_.x_ + dx a ∧
      (s.advance a).character_.y_ = s.character_.y_ + dy a ∧
      (0 < s.points_ (s.character_.y_ + dy a) (s.character_.x_ + dx a) →
        (s.advance a).game_score_
          = s.game_score_ + s.points_ (s.character_.y_ + dy a) (s.character_.x_ + dx a) ∧
        (s.advance a).points_ (s.character_.y_ + dy a) (s.character_.x_ + dx a) = 0) ∧
      (s.points_ (s.character_.y_ + dy a) (s.character_.x_ + dx a) ≤ 0 →
        (s.advance a).game_score_ = s.game_score_ ∧ (s.advance a).points_ = s.points_) ∧
      (∀ y x : Int, ¬ (y = s.character_.y_ + dy a ∧ x = s.character_.x_ + dx a) →
        (s.advance a).points_ y x = s.points_ y x) ∧
      (s.advance a).evaluated_score_ = s.evaluated_score_ ∧
      (s.advance a).first_action_ = s.first_action_) ∧
    (∀ (s : Maze.MazeState) (a : Int), s.inGrid → a ∈ s.legalActions →
      (s.advance a).character_.x_ = s.character_.x_ + Maze.dx a ∧
      (s.advance a).character_.y_ = s.character_.y_ + Maze.dy a ∧
      (0 < s.points_ (s.character_.y_ + Maze.dy a) (s.character_.x_ + Maze.dx a) →
        (s.advance a).game_score_
          = s.game_score_
            + s.points_ (s.character_.y_ + Maze.dy a) (s.character_.x_ + Maze.dx a) ∧
        (s.advance a).points_ (s.character_.y_ + Maze.dy a) (s.character_.x_ + Maze.dx a)
          = 0) ∧
      (s.points_ (s.character_.y_ + Maze.dy a) (s.character_.x_ + Maze.dx a) ≤ 0 →
        (s.advance a).game_score_ = s.game_score_ ∧ (s.advance a).points_ = s.points_) ∧
      (∀ y x : Int, ¬ (y = s.character_.y_ + Maze.dy a ∧ x = s.character_.x_ + Maze.dx a) →
        (s.advance a).points_ y x = s.points_ y x)) := by
  constructor
  · intro s a _ _
    refine ⟨rfl, rfl, ?_, ?_, ?_, rfl, rfl⟩
    · intro h
      simp only [MazeState.advance, gt_iff_lt, h, if_true, and_self]
    · intro h
      have h1 : ¬ 0 < s.points_ (s.character_.y_ + dy a) (s.character_.x_ + dx a) := by omega
      simp only [MazeState.advance, gt_iff_lt, h1, if_false, and_self]
    · intro y x hyx
      simp only [MazeState.advance]
      split
      · simp only [hyx, if_false]
      · rfl
  · intro s a _ _
    refine ⟨rfl, rfl, ?_, ?_, ?_⟩
    · intro h
      simp only [Maze.MazeState.advance, gt_iff_lt, h, if_true, and_self]
    · intro h
      have h1 : ¬ 0 < s.points_ (s.character_.y_ + Maze.dy a) (s.character_.x_ + Maze.dx a) := by
        omega
      simp only [Maze.MazeState.advance, gt_iff_lt, h1, if_false, and_self]
    · intro y x hyx
      simp only [Maze.MazeState.advance]
      split
      · simp only [hyx, if_false]
      · rfl

end BeamSearchWithTime

namespace BeamSearchWithTime

/-- C11, witness: stepping down from `(1, 1)` onto a cell holding the reward `5`, in both
mazes. -/
theorem C11_witness :
    (((mkState 0 1 1 2 1 5).advance 2).game_score_
        = (mkState 0 1 1 2 1 5).game_score_
          + (mkState 0 1 1 2 1 5).points_ ((mkState 0 1 1 2 1 5).character_.y_ + dy 2)
              ((mkState 0 1 1 2 1 5).character_.x_ + dx 2) ∧
      ((mkState 0 1 1 2 1 5).advance 2).points_ ((mkState 0 1 1 2 1 5).character_.y_ + dy 2)
        ((mkState 0 1 1 2 1 5).character_.x_ + dx 2) = 0) ∧
    (((Maze.mkState 0 1 1 2 1 5).advance 2).game_score_
        = (Maze.mkState 0 1 1 2 1 5).game_score_
          + (Maze.mkState 0 1 1 2 1 5).points_
              ((Maze.mkState 0 1 1 2 1 5).character_.y_ + Maze.dy 2)
              ((Maze.mkState 0 1 1 2 1 5).character_.x_ + Maze.dx 2) ∧
      ((Maze.mkState 0 1 1 2 1 5).advance 2).points_
        ((Maze.mkState 0 1 1 2 1 5).character_.y_ + Maze.dy 2)
        ((Maze.mkState 0 1 1 2 1 5).character_.x_ + Maze.dx 2) = 0) :=
  ⟨(C11_advance_frame.1 (mkState 0 1 1 2 1 5) 2 (by decide) (by decide)).2.2.1 (by decide),
    (C11_advance_frame.2 (Maze.mkState 0 1 1 2 1 5) 2 (by decide) (by decide)).2.2.1
      (by decide)⟩

/-! ## C12: counting the turns -/

theorem advanceAll_turn (actions : List Int) :
    ∀ s : MazeState, (advanceAll s actions).turn_ = s.turn_ + actions.length := by
  induction actions with
  | nil => intro s; simp [advanceAll]
  | cons a as ih =>
    intro s
    have h := ih (s.advance a)
    simp only [advanceAll, List.foldl_cons, List.length_cons] at h ⊢
    rw [h]
    simp only [MazeState.advance]
    push_cast
    ring

theorem maze_advanceAll_turn (actions : List Int) :
    ∀ s : Maze.MazeState, (Maze.advanceAll s actions).turn_ = s.turn_ + actions.length := by
  induction actions with
  | nil => intro s; simp [Maze.advanceAll]
  | cons a as ih =>
    intro s
    have h := ih (s.advance a)
    simp only [Maze.advanceAll, List.foldl_cons, List.length_cons] at h ⊢
    rw [h]
    simp only [Maze.MazeState.advance]
    push_cast
    ring

/-- C12: `advance` increases `turn_` by exactly `1`; `isDone()` is true exactly when
`turn_ == END_TURN`; hence a state with `turn_ = t < END_TURN` is terminal after
`END_TURN - t` calls of `advance` and after no other number of calls.  Stated for
`src/BeamSearchWithTime.cpp` and for `src/MazeState.cpp`. -/
theorem C12_turn_counting :
    ((∀ (s : MazeState) (a : Int), (s.advance a).turn_ = s.turn_ + 1) ∧
      (∀ s : MazeState, s.isDone = true ↔ s.turn_ = END_TURN) ∧
      (∀ (s : MazeState) (actions : List Int), s.turn_ < END_TURN →
        ((advanceAll s actions).isDone = true ↔
          (actions.length : Int) = END_TURN - s.turn_))) ∧
    ((∀ (s : Maze.MazeState) (a : Int), (s.advance a).turn_ = s.turn_ + 1) ∧
      (∀ s : Maze.MazeState, s.isDone = true ↔ s.turn_ = Maze.END_TURN) ∧
      (∀ (s : Maze.MazeState) (actions : List Int), s.turn_ < Maze.END_TURN →
        ((Maze.advanceAll s actions).isDone = true ↔
          (actions.length : Int) = Maze.END_TURN - s.turn_))) := by
  refine ⟨⟨fun _ _ => rfl, ?_, ?_⟩, ⟨fun _ _ => rfl, ?_, ?_⟩⟩
  · intro s
    simp [MazeState.isDone]
  · intro s actions _
    simp only [MazeState.isDone, decide_eq_true_eq, advanceAll_turn]
    omega
  · intro s
    simp [Maze.MazeState.isDone]
  · intro s actions _
    simp only [Maze.MazeState.isDone, decide_eq_true_eq, maze_advanceAll_turn]
    omega

/-- C12, witness: from turn `7` the game of `src/BeamSearchWithTime.cpp` is over after
three moves and not after two; from turn `1` that of `src/MazeState.cpp` likewise. -/
theorem C12_witness :
    (((advanceAll (mkState 7 1 1 2 1 5) [0, 1, 0]).isDone = true ↔
        (([0, 1, 0] : List Int).length : Int) = END_TURN - (mkState 7 1 1 2 1 5).turn_) ∧
      ((advanceAll (mkState 7 1 1 2 1 5) [0, 1]).isDone = true ↔
        (([0, 1] : List Int).length : Int) = END_TURN - (mkState 7 1 1 2 1 5).turn_)) ∧
    (((Maze.advanceAll (Maze.mkState 1 1 1 2 1 5) [0, 1, 0]).isDone = true ↔
        (([0, 1, 0] : List Int).length : Int)
          = Maze.END_TURN - (Maze.mkState 1 1 1 2 1 5).turn_) ∧
      ((Maze.advanceAll (Maze.mkState 1 1 1 2 1 5) [0, 1]).isDone = true ↔
        (([0, 1] : List Int).length : Int)
          = Maze.END_TURN - (Maze.mkState 1 1 1 2 1 5).turn_)) :=
  ⟨⟨C12_turn_counting.1.2.2 (mkState 7 1 1 2 1 5) [0, 1, 0] (by decide),
      C12_turn_counting.1.2.2 (mkState 7 1 1 2 1 5) [0, 1] (by decide)⟩,
    ⟨C12_turn_counting.2.2.2 (Maze.mkState 1 1 1 2 1 5) [0, 1, 0] (by decide),
      C12_turn_counting.2.2.2 (Maze.mkState 1 1 1 2 1 5) [0, 1] (by decide)⟩⟩

/-! ## C13: legal actions keep the agent on the grid -/

theorem legalActions_sorted (s : MazeState) :
    List.Pairwise (fun a b : Int => a < b) s.legalActions := by
  unfold MazeState.legalActions
  exact List.Pairwise.filter _ (by decide)

theorem maze_mem_legalActions (s : Maze.MazeState) (a : Int) :
    a ∈ s.legalActions ↔ (a = 0 ∨ a = 1 ∨ a = 2 ∨ a = 3) ∧
      0 ≤ s.character_.y_ + Maze.dy a ∧ s.character_.y_ + Maze.dy a < Maze.H ∧
      0 ≤ s.character_.x_ + Maze.dx a ∧ s.character_.x_ + Maze.dx a < Maze.W := by
  simp [Maze.MazeState.legalActions, List.mem_filter]

theorem maze_legalActions_ne_nil (s : Maze.MazeState) (h : s.inGrid) :
    s.legalActions ≠ [] := by
  obtain ⟨h1, h2, h3, h4⟩ := h
  have hd : Maze.dx 0 = 1 ∧ Maze.dx 1 = -1 := by decide
  have he : Maze.dy 0 = 0 ∧ Maze.dy 1 = 0 := by decide
  unfold Maze.H at h2
  unfold Maze.W at h4
  by_cases hx : s.character_.x_ + 1 < 4
  · have : (0 : Int) ∈ s.legalActions := by
      rw [maze_mem_legalActions, hd.1, he.1]
      refine ⟨by decide, ?_⟩
      unfold Maze.H Maze.W
      omega
    exact List.ne_nil_of_mem this
  · have : (1 : Int) ∈ s.legalActions := by
      rw [maze_mem_legalActions, hd.2, he.2]
      refine ⟨by decide, ?_⟩
      unfold Maze.H Maze.W
      omega
    exact List.ne_nil_of_mem this

/-- C13: for a state whose agent satisfies `0 ≤ x < W` and `0 ≤ y < H`, `legalActions`
returns, in ascending order and without repetition, exactly the actions `a` of
`{0, 1, 2, 3}` whose destination `(x + dx[a], y + dy[a])` is inside the grid; the list is
not empty; and `advance` by a returned action leaves the agent inside the grid, so the
cell read by `advance` exists.  Stated for `src/BeamSearchWithTime.cpp` and for
`src/MazeState.cpp`. -/
theorem C13_legal_actions_on_grid :
    (∀ s : MazeState, s.inGrid →
      List.Pairwise (fun a b : Int => a < b) s.legalActions ∧
      (∀ a : Int, a ∈ s.legalActions ↔ (a = 0 ∨ a = 1 ∨ a = 2 ∨ a = 3) ∧
        0 ≤ s.character_.x_ + dx a ∧ s.character_.x_ + dx a < W ∧
        0 ≤ s.character_.y_ + dy a ∧ s.character_.y_ + dy a < H) ∧
      s.legalActions ≠ [] ∧
      (∀ a ∈ s.legalActions, (s.advance a).inGrid)) ∧
    (∀ s : Maze.MazeState, s.inGrid →
      List.Pairwise (fun a b : Int => a < b) s.legalActions ∧
      (∀ a : Int, a ∈ s.legalActions ↔ (a = 0 ∨ a = 1 ∨ a = 2 ∨ a = 3) ∧
        0 ≤ s.character_.x_ + Maze.dx a ∧ s.character_.x_ + Maze.dx a < Maze.W ∧
        0 ≤ s.character_.y_ + Maze.dy a ∧ s.character_.y_ + Maze.dy a < Maze.H) ∧
      s.legalActions ≠ [] ∧
      (∀ a ∈ s.legalActions, (s.advance a).inGrid)) := by
  constructor
  · intro s hs
    refine ⟨legalActions_sorted s, ?_, legalActions_ne_nil s hs, advance_inGrid s⟩
    intro a
    rw [mem_legalActions]
    tauto
  · intro s hs
    refine ⟨?_, ?_, maze_legalActions_ne_nil s hs, ?_⟩
    · unfold Maze.MazeState.legalActions
      exact List.Pairwise.filter _ (by decide)
    · intro a
      rw [maze_mem_legalActions]
      tauto
    · intro a ha
      rw [maze_mem_legalActions] at ha
      simp only [Maze.MazeState.inGrid, Maze.MazeState.advance]
      omega

/-- C13, witness: the corner `(0, 0)` of both grids. -/
theorem C13_witness :
    (List.Pairwise (fun a b : Int => a < b) (mkState 0 0 0 0 1 5).legalActions ∧
      (∀ a : Int, a ∈ (mkState 0 0 0 0 1 5).legalActions ↔
        (a = 0 ∨ a = 1 ∨ a = 2 ∨ a = 3) ∧
        0 ≤ (mkState 0 0 0 0 1 5).character_.x_ + dx a ∧
        (mkState 0 0 0 0 1 5).character_.x_ + dx a < W ∧
        0 ≤ (mkState 0 0 0 0 1 5).character_.y_ + dy a ∧
        (mkState 0 0 0 0 1 5).character_.y_ + dy a < H) ∧
      (mkState 0 0 0 0 1 5).legalActions ≠ [] ∧
      (∀ a ∈ (mkState 0 0 0 0 1 5).legalActions, ((mkState 0 0 0 0 1 5).advance a).inGrid)) ∧
    (List.Pairwise (fun a b : Int => a < b) (Maze.mkState 0 0 0 0 1 5).legalActions ∧
      (∀ a : Int, a ∈ (Maze.mkState 0 0 0 0 1 5).legalActions ↔
        (a = 0 ∨ a = 1 ∨ a = 2 ∨ a = 3) ∧
        0 ≤ (Maze.mkState 0 0 0 0 1 5).character_.x_ + Maze.dx a ∧
        (Maze.mkState 0 0 0 0 1 5).character_.x_ + Maze.dx a < Maze.W ∧
        0 ≤ (Maze.mkState 0 0 0 0 1 5).character_.y_ + Maze.dy a ∧
        (Maze.mkState 0 0 0 0 1 5).character_.y_ + Maze.dy a < Maze.H) ∧
      (Maze.mkState 0 0 0 0 1 5).legalActions ≠ [] ∧
      (∀ a ∈ (Maze.mkState 0 0 0 0 1 5).legalActions,
        ((Maze.mkState 0 0 0 0 1 5).advance a).inGrid)) :=
  ⟨C13_legal_actions_on_grid.1 (mkState 0 0 0 0 1 5) (by decide),
    C13_legal_actions_on_grid.2 (Maze.mkState 0 0 0 0 1 5) (by decide)⟩

end BeamSearchWithTime

namespace BeamSearchWithTime

/-! ## C14: `evaluated_score_` against `game_score_` -/

theorem nextState_evaluated (t : Int) (s : MazeState) (a : Int) :
    (nextState t s a).evaluated_score_ = (nextState t s a).game_score_ := by
  unfold nextState
  split <;> rfl

theorem node_evaluated (init : MazeState) (k : Nat) (x : MazeState)
    (h : Node init (k + 1) x) : x.evaluated_score_ = x.game_score_ := by
  obtain ⟨p, a, _, _, rfl⟩ := h
  exact nextState_evaluated _ p a

/-- C14, counterexample: in a freshly constructed state whose cells (the agent cell
apart) all hold the reward `5`, with the agent at `(5, 5)`, action `0` is legal and after
`advance(0)` the `game_score_` is `5` while `evaluated_score_` is still `0`. -/
theorem C14_counterexample :
    (construct (fun _ => 5)).character_.y_ = 5 ∧
    (construct (fun _ => 5)).character_.x_ = 5 ∧
    (0 : Int) ∈ (construct (fun _ => 5)).legalActions ∧
    ((construct (fun _ => 5)).advance 0).game_score_ = 5 ∧
    ((construct (fun _ => 5)).advance 0).evaluated_score_ = 0 := by
  decide

/-- C14, amended: `evaluated_score_ == game_score_` holds in a freshly constructed
state, right after every `evaluateScore` call, and in every state that one of the three
searches puts in a frontier.  `advance` never writes `evaluated_score_`: from a state
where the two are equal, they are equal after `advance` exactly when the entered cell
holds no positive reward. -/
theorem C14_evaluated_score_amended :
    (∀ rng : Nat → Nat, (construct rng).evaluated_score_ = (construct rng).game_score_) ∧
    defaultState.evaluated_score_ = defaultState.game_score_ ∧
    (∀ s : MazeState, s.evaluateScore.evaluated_score_ = s.evaluateScore.game_score_) ∧
    (∀ (s : MazeState) (a : Int), (s.advance a).evaluated_score_ = s.evaluated_score_) ∧
    (∀ (s : MazeState) (a : Int), s.evaluated_score_ = s.game_score_ →
      ((s.advance a).evaluated_score_ = (s.advance a).game_score_ ↔
        s.points_ (s.character_.y_ + dy a) (s.character_.x_ + dx a) ≤ 0)) ∧
    (∀ (pq : PriorityQueue) (nth : NthElement) (clock : Nat → Int) (s : MazeState)
      (w d thr : Int) (fuel : Nat) (fr : List MazeState),
      fr ∈ (runA pq s w d).frontiers ∨ fr ∈ (runB pq clock s w thr fuel).frontiers ∨
        fr ∈ (runC nth s w d).frontiers →
      ∀ x ∈ fr, x.evaluated_score_ = x.game_score_) := by
  refine ⟨fun _ => rfl, rfl, fun _ => rfl, fun _ _ => rfl, ?_, ?_⟩
  · intro s a h
    simp only [MazeState.advance, h]
    split
    · constructor
      · intro h1; omega
      · intro h1; omega
    · constructor
      · intro _; omega
      · intro _; trivial
  · intro pq nth clock s w d thr fuel fr h x hx
    have hA : ∀ n, fr ∈ (roundsA pq w n 0 (pq.push [] s) defaultState).frontiers →
        x.evaluated_score_ = x.game_score_ := by
      intro n hn
      obtain ⟨i, hi⟩ := List.mem_iff_getElem?.1 hn
      have := (roundsA_frontiers pq w s n 0 _ defaultState (init_queue pq s).2 i fr hi).1 x hx
      exact node_evaluated s _ x this
    rcases h with h | h | h
    · exact hA _ h
    · unfold runB at h
      rw [← roundsB_frontiers] at h
      exact hA _ h
    · obtain ⟨i, hi⟩ := List.mem_iff_getElem?.1 h
      have := (roundsC_frontiers nth w s d.toNat 0 [s] (by simp [Node]) i fr hi).1 x hx
      exact node_evaluated s _ x this

/-- C14, witness of the amended statement at the state of the counterexample and at a
move onto an empty cell. -/
theorem C14_witness :
    (((construct (fun _ => 5)).advance 0).evaluated_score_
        = ((construct (fun _ => 5)).advance 0).game_score_ ↔
      (construct (fun _ => 5)).points_ ((construct (fun _ => 5)).character_.y_ + dy 0)
        ((construct (fun _ => 5)).character_.x_ + dx 0) ≤ 0) ∧
    ((mkState 0 1 1 2 1 5).advance 0).evaluated_score_
      = ((mkState 0 1 1 2 1 5).advance 0).game_score_ :=
  ⟨C14_evaluated_score_amended.2.2.2.2.1 (construct (fun _ => 5)) 0 (by decide),
    (C14_evaluated_score_amended.2.2.2.2.1 (mkState 0 1 1 2 1 5) 0 (by decide)).2
      (by decide)⟩

end BeamSearchWithTime

namespace BeamSearchWithTime

/-! ## C15: the states expanded by variants A and B -/

theorem popped_unexpanded_perm (pq : PriorityQueue) :
    ∀ (n : Nat) (q : List MazeState), List.Perm (popped pq n q ++ unexpanded pq n q) q
  | 0, q => by simp [popped, unexpanded]
  | n + 1, q => by
    unfold popped unexpanded
    cases ht : pq.top q with
    | none => simp
    | some s =>
      obtain ⟨_, hp, _⟩ := top_mem pq q s ht
      simp only [List.cons_append]
      exact ((popped_unexpanded_perm pq n (pq.pop q)).cons s).trans hp

theorem popped_ge_unexpanded (pq : PriorityQueue) :
    ∀ (n : Nat) (q : List MazeState), ∀ a ∈ popped pq n q, ∀ b ∈ unexpanded pq n q,
      b.evaluated_score_ ≤ a.evaluated_score_
  | 0, q, a, ha, _, _ => by simp [popped] at ha
  | n + 1, q, a, ha, b, hb => by
    unfold popped at ha
    unfold unexpanded at hb
    cases ht : pq.top q with
    | none => simp [ht] at ha
    | some s =>
      obtain ⟨_, hp, hmax⟩ := top_mem pq q s ht
      simp only [ht, List.mem_cons] at ha hb
      rcases ha with rfl | ha
      · have hb1 : b ∈ popped pq n (pq.pop q) ++ unexpanded pq n (pq.pop q) :=
          List.mem_append_right _ hb
        have hb2 := (popped_unexpanded_perm pq n (pq.pop q)).subset hb1
        exact hmax b (hp.subset (List.mem_cons_of_mem _ hb2))
      · exact popped_ge_unexpanded pq n (pq.pop q) a ha b hb

theorem popped_sorted (pq : PriorityQueue) :
    ∀ (n : Nat) (q : List MazeState),
      List.Pairwise (fun a b : MazeState => b.evaluated_score_ ≤ a.evaluated_score_)
        (popped pq n q)
  | 0, q => by simp [popped]
  | n + 1, q => by
    unfold popped
    cases ht : pq.top q with
    | none => simp
    | some s =>
      obtain ⟨_, hp, hmax⟩ := top_mem pq q s ht
      simp only [List.pairwise_cons]
      refine ⟨?_, popped_sorted pq n (pq.pop q)⟩
      intro b hb
      exact hmax b (hp.subset (List.mem_cons_of_mem _ (popped_subset pq n _ b hb)))

/-- C15: in every completed round of `beamSearchAction` and of
`beamSearchActionWithTimeThreshold`, at most `beam_width` states are popped and expanded;
they are popped in non-increasing `evaluated_score_` order; every expanded state has an
`evaluated_score_` at least that of every state left unexpanded in the current frontier;
and the next frontier consists exactly of all successors of the expanded states. -/
theorem C15_expansion_cap_and_order (pq : PriorityQueue) (clock : Nat → Int) (s : MazeState)
    (w d thr : Int) (fuel : Nat) (i : Nat) (fr : List MazeState)
    (h : (runA pq s w d).frontiers[i]? = some fr ∨
      (runB pq clock s w thr fuel).frontiers[i]? = some fr) :
    ∃ prev,
      ((pq.push [] s :: (runA pq s w d).frontiers)[i]? = some prev ∨
        (pq.push [] s :: (runB pq clock s w thr fuel).frontiers)[i]? = some prev) ∧
      (popped pq w.toNat prev).length ≤ w.toNat ∧
      List.Pairwise (fun a b : MazeState => b.evaluated_score_ ≤ a.evaluated_score_)
        (popped pq w.toNat prev) ∧
      List.Perm (popped pq w.toNat prev ++ unexpanded pq w.toNat prev) prev ∧
      (∀ a ∈ popped pq w.toNat prev, ∀ b ∈ unexpanded pq w.toNat prev,
        b.evaluated_score_ ≤ a.evaluated_score_) ∧
      List.Perm fr (candidates (i : Int) (popped pq w.toNat prev)) := by
  have key : ∀ prev, List.Perm fr (candidates (i : Int) (popped pq w.toNat prev)) →
      (popped pq w.toNat prev).length ≤ w.toNat ∧
      List.Pairwise (fun a b : MazeState => b.evaluated_score_ ≤ a.evaluated_score_)
        (popped pq w.toNat prev) ∧
      List.Perm (popped pq w.toNat prev ++ unexpanded pq w.toNat prev) prev ∧
      (∀ a ∈ popped pq w.toNat prev, ∀ b ∈ unexpanded pq w.toNat prev,
        b.evaluated_score_ ≤ a.evaluated_score_) ∧
      List.Perm fr (candidates (i : Int) (popped pq w.toNat prev)) :=
    fun prev hp => ⟨popped_length_le pq _ prev, popped_sorted pq _ prev,
      popped_unexpanded_perm pq _ prev, popped_ge_unexpanded pq _ prev, hp⟩
  rcases h with h | h
  · obtain ⟨prev, h1, _, h3⟩ := roundsA_round pq w d.toNat 0 (pq.push [] s) defaultState i fr h
    simp only [Nat.zero_add] at h3
    exact ⟨prev, Or.inl h1, key prev h3⟩
  · unfold runB at h ⊢
    have hfr := roundsB_frontiers pq ⟨thr⟩ clock w fuel 0 0 (pq.push [] s) defaultState
    rw [← hfr] at h ⊢
    obtain ⟨prev, h1, _, h3⟩ := roundsA_round pq w _ 0 (pq.push [] s) defaultState i fr h
    simp only [Nat.zero_add] at h3
    exact ⟨prev, Or.inr h1, key prev h3⟩

/-- C15, witness: round `1` of variant A with width `2` from the middle of the grid. -/
theorem C15_witness :
    ∃ prev,
      ((listPQ.push [] (mkState 0 1 1 2 1 5)
          :: (runA listPQ (mkState 0 1 1 2 1 5) 2 3).frontiers)[1]? = some prev ∨
        (listPQ.push [] (mkState 0 1 1 2 1 5)
          :: (runB listPQ (fun _ => 0) (mkState 0 1 1 2 1 5) 2 1 5).frontiers)[1]?
          = some prev) ∧
      (popped listPQ (2 : Int).toNat prev).length ≤ (2 : Int).toNat ∧
      List.Pairwise (fun a b : MazeState => b.evaluated_score_ ≤ a.evaluated_score_)
        (popped listPQ (2 : Int).toNat prev) ∧
      List.Perm (popped listPQ (2 : Int).toNat prev ++ unexpanded listPQ (2 : Int).toNat prev)
        prev ∧
      (∀ a ∈ popped listPQ (2 : Int).toNat prev, ∀ b ∈ unexpanded listPQ (2 : Int).toNat prev,
        b.evaluated_score_ ≤ a.evaluated_score_) ∧
      List.Perm ((runA listPQ (mkState 0 1 1 2 1 5) 2 3).frontiers.getD 1 [])
        (candidates ((1 : Nat) : Int) (popped listPQ (2 : Int).toNat prev)) :=
  C15_expansion_cap_and_order listPQ (fun _ => 0) (mkState 0 1 1 2 1 5) 2 3 1 5 1
    ((runA listPQ (mkState 0 1 1 2 1 5) 2 3).frontiers.getD 1 []) (Or.inl (by rfl))

end BeamSearchWithTime

namespace BeamSearchWithTime

/-! ## C16: the state read by the termination test of variant C -/

theorem roundsC_frontiers_ne_nil (nth : NthElement) (w : Int) (hw : 1 ≤ w)
    (init : MazeState) (hi : init.inGrid) :
    ∀ (n k : Nat) (now : List MazeState),
      now ≠ [] → (∀ x ∈ now, Node init k x) →
      ∀ fr ∈ (roundsC nth w n (k : Int) now).frontiers, fr ≠ [] := by
  intro n
  induction n with
  | zero => intro k now _ _ fr h; simp [roundsC_zero] at h
  | succ n ih =>
    intro k now hne hn fr h
    have hnode := roundC_node nth w init k now hn
    have hnn := roundC_ne_nil nth w hw (k : Int) now hne
      (fun s hs => node_inGrid init hi k s (hn s hs))
    rw [roundsC_succ] at h
    cases hs : selectC nth w (expandC (k : Int) now) with
    | nil => exact absurd hs hnn
    | cons s0 rest =>
      rw [hs] at h hnode hnn
      by_cases hd : s0.isDone = true
      · simp only [hd, if_true, List.mem_singleton] at h
        rw [h]
        exact hnn
      · have hc : ((k : Int) + 1) = ((k + 1 : Nat) : Int) := by push_cast; ring
        simp only [hd, Bool.false_eq_true, if_false, Run.after, List.mem_cons, hc] at h
        rcases h with h | h
        · rw [h]
          exact hnn
        · exact ih (k + 1) _ hnn hnode fr h

/-- C16, counterexample: from the middle of the grid with a reward below the agent.
With `beam_width = 4` the four candidates are kept as generated and `now_beam[0]` has
score `0` although a member of the frontier has score `5`; with `beam_width = 2` and an
`nth_element` that leaves the two best candidates in increasing order, `now_beam[0]` has
score `0` and `now_beam[1]` score `5`. -/
theorem C16_counterexample :
    (runC sortNth (mkState 0 1 1 2 1 5) 4 1).frontiers.map
        (fun fr => fr.map (fun x => x.evaluated_score_)) = [[0, 0, 5, 0]] ∧
    (runC reversedNth (mkState 0 1 1 2 1 5) 2 1).frontiers.map
        (fun fr => fr.map (fun x => x.evaluated_score_)) = [[0, 5]] := by
  decide

/-- C16, amended: after the selection step of every round of
`beamSearchActionByNthElement` (`beam_width ≥ 1`, initial agent inside the grid) the
frontier is not empty, so `now_beam[0]` is a member of it; all members of the frontier
have the same `turn_`, so `now_beam[0].isDone()` has the value of `isDone()` of every
member, in particular of a member with the highest `evaluated_score_`. -/
theorem C16_termination_check_amended (nth : NthElement) (s : MazeState) (w d : Int)
    (hi : s.inGrid) (hw : 1 ≤ w) (i : Nat) (fr : List MazeState)
    (h : (runC nth s w d).frontiers[i]? = some fr) :
    ∃ s0 rest, fr = s0 :: rest ∧
      (∀ x ∈ fr, x.turn_ = s0.turn_ ∧ x.isDone = s0.isDone) ∧
      ∃ best ∈ fr, (∀ x ∈ fr, x.evaluated_score_ ≤ best.evaluated_score_) ∧
        best.isDone = s0.isDone := by
  have hC : ∀ x ∈ [s], Node s 0 x := by simp [Node]
  have hne : fr ≠ [] :=
    roundsC_frontiers_ne_nil nth w hw s hi d.toNat 0 [s] (by simp) hC fr
      (List.mem_iff_getElem?.2 ⟨i, h⟩)
  have hturn : ∀ x ∈ fr, x.turn_ = s.turn_ + ((0 + i + 1 : Nat) : Int) := fun x hx =>
    node_turn s _ x ((roundsC_frontiers nth w s d.toNat 0 [s] hC i fr h).1 x hx)
  cases hfr : fr with
  | nil => exact absurd hfr hne
  | cons s0 rest =>
    rw [hfr] at hturn hne
    have h0 := hturn s0 (List.mem_cons_self _ _)
    have hall : ∀ x ∈ s0 :: rest, x.turn_ = s0.turn_ ∧ x.isDone = s0.isDone := by
      intro x hx
      have hx1 := hturn x hx
      have : x.turn_ = s0.turn_ := by omega
      exact ⟨this, by simp [MazeState.isDone, this]⟩
    obtain ⟨best, _, hb, hmax⟩ := top_some_of_ne_nil listPQ (s0 :: rest) hne
    exact ⟨s0, rest, rfl, hall, best, hb, hmax, (hall best hb).2⟩

/-- C16, witness of the amended statement at the first run of the counterexample. -/
theorem C16_witness :
    ∃ s0 rest, (runC sortNth (mkState 0 1 1 2 1 5) 4 1).frontiers.getD 0 [] = s0 :: rest ∧
      (∀ x ∈ (runC sortNth (mkState 0 1 1 2 1 5) 4 1).frontiers.getD 0 [],
        x.turn_ = s0.turn_ ∧ x.isDone = s0.isDone) ∧
      ∃ best ∈ (runC sortNth (mkState 0 1 1 2 1 5) 4 1).frontiers.getD 0 [],
        (∀ x ∈ (runC sortNth (mkState 0 1 1 2 1 5) 4 1).frontiers.getD 0 [],
          x.evaluated_score_ ≤ best.evaluated_score_) ∧
        best.isDone = s0.isDone :=
  C16_termination_check_amended sortNth (mkState 0 1 1 2 1 5) 4 1 (by decide) (by decide) 0
    ((runC sortNth (mkState 0 1 1 2 1 5) 4 1).frontiers.getD 0 []) (by rfl)

end BeamSearchWithTime

namespace BeamSearchWithTime

/-! ## C17: the unbounded loop of variant B -/

/-- A run of variant B that does not exhaust its round budget is the same with a larger
budget. -/
theorem roundsB_fuel_mono (pq : PriorityQueue) (tk : TimeKeeper) (clock : Nat → Int)
    (w : Int) (extra : Nat) :
    ∀ (fuel : Nat) (t : Int) (p : Nat) (now : List MazeState) (best : MazeState),
      (roundsB pq tk clock w fuel t p now best).outcome ≠ .outOfFuel →
      roundsB pq tk clock w (fuel + extra) t p now best
        = roundsB pq tk clock w fuel t p now best := by
  intro fuel
  induction fuel with
  | zero => intro t p now best h; simp [roundsB_zero] at h
  | succ fuel ih =>
    intro t p now best h
    have he : fuel + 1 + extra = (fuel + extra) + 1 := by omega
    rw [he, roundsB_succ, roundsB_succ]
    rw [roundsB_succ] at h
    cases hx : expandB pq tk clock t w.toNat p now [] with
    | none => rfl
    | some r =>
      obtain ⟨nb, p1⟩ := r
      simp only [hx] at h ⊢
      cases hb : pq.top nb with
      | none => rfl
      | some b =>
        simp only [hb] at h ⊢
        by_cases hd : b.isDone = true
        · simp [hd]
        · simp only [hd, Bool.false_eq_true, if_false, Run.after] at h ⊢
          rw [ih (t + 1) p1 nb b h]

/-- C17: for an initial state with the agent inside the grid and `turn_ < END_TURN` and
`beam_width ≥ 1`, `beamSearchActionWithTimeThreshold` returns for every sequence of clock
readings, also one that never reports expiry: a budget of `END_TURN - turn_` rounds is
enough and a larger one changes nothing; it completes at most `END_TURN - turn_` rounds;
and it never reads `top()` of an empty frontier. -/
theorem C17_time_bounded_terminates (pq : PriorityQueue) (clock : Nat → Int) (s : MazeState)
    (w thr : Int) (fuel : Nat) (hi : s.inGrid) (ht : s.turn_ < END_TURN) (hw : 1 ≤ w)
    (hf : END_TURN - s.turn_ ≤ fuel) :
    (∃ a, beamSearchActionWithTimeThreshold pq clock s w thr fuel = .ret a) ∧
    beamSearchActionWithTimeThreshold pq clock s w thr fuel ≠ .undefined ∧
    beamSearchActionWithTimeThreshold pq clock s w thr fuel ≠ .outOfFuel ∧
    ((runB pq clock s w thr fuel).frontiers.length : Int) ≤ END_TURN - s.turn_ ∧
    runB pq clock s w thr fuel = runB pq clock s w thr (END_TURN - s.turn_).toNat := by
  obtain ⟨hne, hnode⟩ := init_queue pq s
  have h0 : s.turn_ + ((0 : Nat) : Int) < END_TURN := by simpa using ht
  have hret : ∀ f : Nat, END_TURN - s.turn_ ≤ f →
      ∃ a, (runB pq clock s w thr f).outcome = .ret a := by
    intro f hf1
    have := roundsB_returns pq ⟨thr⟩ clock w hw s hi f 0 0 (pq.push [] s) defaultState
      hne hnode h0 (by push_cast; omega)
    simpa [runB] using this
  obtain ⟨a, ha⟩ := hret fuel hf
  refine ⟨⟨a, ha⟩, ?_, ?_, ?_, ?_⟩
  · unfold beamSearchActionWithTimeThreshold
    rw [ha]
    exact fun hc => Outcome.noConfusion hc
  · unfold beamSearchActionWithTimeThreshold
    rw [ha]
    exact fun hc => Outcome.noConfusion hc
  · have h1 := roundsB_frontiers pq ⟨thr⟩ clock w fuel 0 0 (pq.push [] s) defaultState
    have h2 := roundsA_length pq w hw s hi
      (roundsB pq ⟨thr⟩ clock w fuel 0 0 (pq.push [] s) defaultState).frontiers.length 0
      (pq.push [] s) defaultState hne hnode
    simp only [Nat.cast_zero, sub_zero, add_zero] at h2
    rw [h1, if_pos ht] at h2
    unfold runB
    omega
  · obtain ⟨m, hm⟩ : ∃ m, fuel = (END_TURN - s.turn_).toNat + m :=
      ⟨fuel - (END_TURN - s.turn_).toNat, by omega⟩
    obtain ⟨b, hb⟩ := hret (END_TURN - s.turn_).toNat (by omega)
    have := roundsB_fuel_mono pq ⟨thr⟩ clock w m (END_TURN - s.turn_).toNat 0 0
      (pq.push [] s) defaultState (by
        unfold runB at hb
        rw [hb]
        exact fun hc => Outcome.noConfusion hc)
    unfold runB
    rw [hm, this]

/-- C17, witness: three turns before the end with a clock that never expires and a
budget of seven rounds. -/
theorem C17_witness :
    (∃ a, beamSearchActionWithTimeThreshold listPQ (fun _ => 0) (mkState 7 1 1 2 1 5) 1 1 7
      = .ret a) ∧
    beamSearchActionWithTimeThreshold listPQ (fun _ => 0) (mkState 7 1 1 2 1 5) 1 1 7
      ≠ .undefined ∧
    beamSearchActionWithTimeThreshold listPQ (fun _ => 0) (mkState 7 1 1 2 1 5) 1 1 7
      ≠ .outOfFuel ∧
    ((runB listPQ (fun _ => 0) (mkState 7 1 1 2 1 5) 1 1 7).frontiers.length : Int)
      ≤ END_TURN - (mkState 7 1 1 2 1 5).turn_ ∧
    runB listPQ (fun _ => 0) (mkState 7 1 1 2 1 5) 1 1 7
      = runB listPQ (fun _ => 0) (mkState 7 1 1 2 1 5) 1 1
          (END_TURN - (mkState 7 1 1 2 1 5).turn_).toNat :=
  C17_time_bounded_terminates listPQ (fun _ => 0) (mkState 7 1 1 2 1 5) 1 1 7 (by decide)
    (by decide) (by decide) (by decide)

end BeamSearchWithTime

namespace BeamSearchWithTime

/-! ## C18: the greedy choice -/

/-- The loop of `greedyAction` over a list of actions scored by `f`: either no action
beats the initial `best_score` and the accumulator is unchanged, or the result is the
first action of the list with the maximal score. -/
theorem argmax_foldl (f : Int → Int) :
    ∀ (l : List Int) (b0 a0 : Int), ∃ r : Int × Int,
      l.foldl (fun (best : Int × Int) a => if f a > best.1 then (f a, a) else best) (b0, a0)
        = r ∧
      ((r = (b0, a0) ∧ ∀ x ∈ l, f x ≤ b0) ∨
        (∃ pre post, l = pre ++ r.2 :: post ∧ f r.2 = r.1 ∧ b0 < r.1 ∧
          (∀ x ∈ pre, f x < r.1) ∧ ∀ x ∈ l, f x ≤ r.1)) := by
  intro l
  induction l with
  | nil => intro b0 a0; exact ⟨(b0, a0), rfl, Or.inl ⟨rfl, by simp⟩⟩
  | cons a l ih =>
    intro b0 a0
    simp only [List.foldl_cons]
    by_cases hgt : f a > b0
    · simp only [hgt, if_true]
      obtain ⟨r, hr, h⟩ := ih (f a) a
      refine ⟨r, hr, Or.inr ?_⟩
      rcases h with ⟨rfl, hall⟩ | ⟨pre, post, hl, h1, h2, h3, h4⟩
      · refine ⟨[], l, rfl, rfl, hgt, by simp, ?_⟩
        intro x hx
        rcases List.mem_cons.1 hx with rfl | hx
        · exact le_refl _
        · exact hall x hx
      · refine ⟨a :: pre, post, by rw [hl]; rfl, h1, by omega, ?_, ?_⟩
        · intro x hx
          rcases List.mem_cons.1 hx with rfl | hx
          · exact h2
          · exact h3 x hx
        · intro x hx
          rcases List.mem_cons.1 hx with rfl | hx
          · omega
          · exact h4 x hx
    · simp only [hgt, if_false]
      obtain ⟨r, hr, h⟩ := ih b0 a0
      refine ⟨r, hr, ?_⟩
      rcases h with ⟨rfl, hall⟩ | ⟨pre, post, hl, h1, h2, h3, h4⟩
      · refine Or.inl ⟨rfl, ?_⟩
        intro x hx
        rcases List.mem_cons.1 hx with rfl | hx
        · omega
        · exact hall x hx
      · refine Or.inr ⟨a :: pre, post, by rw [hl]; rfl, h1, h2, ?_, ?_⟩
        · intro x hx
          rcases List.mem_cons.1 hx with rfl | hx
          · omega
          · exact h3 x hx
        · intro x hx
          rcases List.mem_cons.1 hx with rfl | hx
          · omega
          · exact h4 x hx

theorem greedyAction_eq (s : MazeState) :
    greedyAction s = (s.legalActions.foldl
      (fun (best : Int × Int) a =>
        if (fun a => (s.advance a).game_score_) a > best.1
        then ((fun a => (s.advance a).game_score_) a, a) else best) (-INF, -1)).2 := rfl

theorem advance_game_score_ge (s : MazeState) (a : Int) :
    s.game_score_ ≤ (s.advance a).game_score_ := by
  simp only [MazeState.advance]
  split <;> omega

/-- The greedy choice of `src/BeamSearchWithTime.cpp`, for a score above `-INF`. -/
theorem greedyAction_spec (s : MazeState) (hg : -INF < s.game_score_) :
    (s.legalActions = [] ∧ greedyAction s = -1) ∨
    (∃ pre post, s.legalActions = pre ++ greedyAction s :: post ∧
      (∀ b ∈ s.legalActions,
        (s.advance b).game_score_ ≤ (s.advance (greedyAction s)).game_score_) ∧
      (∀ b ∈ pre, (s.advance b).game_score_ < (s.advance (greedyAction s)).game_score_)) := by
  obtain ⟨r, hr, h⟩ := argmax_foldl (fun a => (s.advance a).game_score_) s.legalActions
    (-INF) (-1)
  have hga : greedyAction s = r.2 := by rw [greedyAction_eq, hr]
  rcases h with ⟨rfl, hall⟩ | ⟨pre, post, hl, h1, _, h3, h4⟩
  · left
    refine ⟨?_, hga⟩
    cases hl : s.legalActions with
    | nil => rfl
    | cons a as =>
      have := hall a (by rw [hl]; exact List.mem_cons_self _ _)
      have h2 := advance_game_score_ge s a
      have h3 : (s.advance a).game_score_ ≤ -INF := this
      omega
  · right
    rw [hga]
    exact ⟨pre, post, hl, fun b hb => h1 ▸ h4 b hb, fun b hb => h1 ▸ h3 b hb⟩

end BeamSearchWithTime

namespace BeamSearchWithTime

theorem greedyFile_mem_legalActions (s : Greedy.MazeState) (a : Int) :
    a ∈ s.legalActions ↔ (a = 0 ∨ a = 1 ∨ a = 2 ∨ a = 3) ∧
      0 ≤ s.character_.y_ + Greedy.dy a ∧ s.character_.y_ + Greedy.dy a < Greedy.H ∧
      0 ≤ s.character_.x_ + Greedy.dx a ∧ s.character_.x_ + Greedy.dx a < Greedy.W := by
  simp [Greedy.MazeState.legalActions, List.mem_filter]

theorem greedyFile_legalActions_ne_nil (s : Greedy.MazeState) (h : s.inGrid) :
    s.legalActions ≠ [] := by
  obtain ⟨h1, h2, h3, h4⟩ := h
  have hd : Greedy.dx 0 = 1 ∧ Greedy.dx 1 = -1 := by decide
  have he : Greedy.dy 0 = 0 ∧ Greedy.dy 1 = 0 := by decide
  unfold Greedy.H at h2
  unfold Greedy.W at h4
  by_cases hx : s.character_.x_ + 1 < 4
  · have : (0 : Int) ∈ s.legalActions := by
      rw [greedyFile_mem_legalActions, hd.1, he.1]
      refine ⟨by decide, ?_⟩
      unfold Greedy.H Greedy.W
      omega
    exact List.ne_nil_of_mem this
  · have : (1 : Int) ∈ s.legalActions := by
      rw [greedyFile_mem_legalActions, hd.2, he.2]
      refine ⟨by decide, ?_⟩
      unfold Greedy.H Greedy.W
      omega
    exact List.ne_nil_of_mem this

theorem greedyFile_greedyAction_eq (s : Greedy.MazeState) :
    Greedy.greedyAction s = (s.legalActions.foldl
      (fun (best : Int × Int) a =>
        if (fun a => (s.advance a).game_score_) a > best.1
        then ((fun a => (s.advance a).game_score_) a, a) else best) (-Greedy.INF, -1)).2 :=
  rfl

theorem greedyFile_advance_game_score_ge (s : Greedy.MazeState) (a : Int) :
    s.game_score_ ≤ (s.advance a).game_score_ := by
  simp only [Greedy.MazeState.advance]
  split <;> omega

/-- The greedy choice of `src/Greedy.cpp`, for a score above `-INF`. -/
theorem greedyFile_greedyAction_spec (s : Greedy.MazeState)
    (hg : -Greedy.INF < s.game_score_) :
    (s.legalActions = [] ∧ Greedy.greedyAction s = -1) ∨
    (∃ pre post, s.legalActions = pre ++ Greedy.greedyAction s :: post ∧
      (∀ b ∈ s.legalActions,
        (s.advance b).game_score_ ≤ (s.advance (Greedy.greedyAction s)).game_score_) ∧
      (∀ b ∈ pre,
        (s.advance b).game_score_ < (s.advance (Greedy.greedyAction s)).game_score_)) := by
  obtain ⟨r, hr, h⟩ := argmax_foldl (fun a => (s.advance a).game_score_) s.legalActions
    (-Greedy.INF) (-1)
  have hga : Greedy.greedyAction s = r.2 := by rw [greedyFile_greedyAction_eq, hr]
  rcases h with ⟨rfl, hall⟩ | ⟨pre, post, hl, h1, _, h3, h4⟩
  · left
    refine ⟨?_, hga⟩
    cases hl : s.legalActions with
    | nil => rfl
    | cons a as =>
      have := hall a (by rw [hl]; exact List.mem_cons_self _ _)
      have h2 := greedyFile_advance_game_score_ge s a
      have h3 : (s.advance a).game_score_ ≤ -Greedy.INF := this
      omega
  · right
    rw [hga]
    exact ⟨pre, post, hl, fun b hb => h1 ▸ h4 b hb, fun b hb => h1 ▸ h3 b hb⟩

/-- C18, counterexample: a state with the agent at `(1, 1)`, inside the grid, and
`game_score_ = -1000000010`, below `-INF`.  All four actions are legal, no successor has
a score greater than the initial `best_score = -INF`, and `greedyAction` returns `-1`
although `legalActions` is not empty.  The same in `src/Greedy.cpp`. -/
theorem C18_counterexample :
    ({ mkState 0 1 1 2 1 5 with game_score_ := -1000000010 } : MazeState).inGrid ∧
    ({ mkState 0 1 1 2 1 5 with game_score_ := -1000000010 } : MazeState).legalActions
      = [0, 1, 2, 3] ∧
    greedyAction { mkState 0 1 1 2 1 5 with game_score_ := -1000000010 } = -1 ∧
    ({ Greedy.mkState 0 1 1 2 1 5 with game_score_ := -1000000010 }
      : Greedy.MazeState).inGrid ∧
    ({ Greedy.mkState 0 1 1 2 1 5 with game_score_ := -1000000010 }
      : Greedy.MazeState).legalActions = [0, 1, 2, 3] ∧
    Greedy.greedyAction { Greedy.mkState 0 1 1 2 1 5 with game_score_ := -1000000010 }
      = -1 := by
  decide

/-- C18, amended: `greedyAction` takes the state by `const` reference and works on
copies (the model is a function of the state).  For a state with the agent inside the
grid and a `game_score_` greater than `-INF` (as every non-negative score is), it returns
the first action `a` of `legalActions(state)`, in list order, whose `game_score_` after
`advance(a)` is at least that after `advance(b)` for every legal `b`: every earlier legal
action gives a strictly smaller score.  For such a score it returns `-1` exactly when
`legalActions` is empty.  Stated for `src/BeamSearchWithTime.cpp` and for
`src/Greedy.cpp`. -/
theorem C18_greedy_action_amended :
    (∀ s : MazeState, -INF < s.game_score_ →
      (s.inGrid → ∃ pre post, s.legalActions = pre ++ greedyAction s :: post ∧
        (∀ b ∈ s.legalActions,
          (s.advance b).game_score_ ≤ (s.advance (greedyAction s)).game_score_) ∧
        (∀ b ∈ pre, (s.advance b).game_score_ < (s.advance (greedyAction s)).game_score_)) ∧
      (greedyAction s = -1 ↔ s.legalActions = [])) ∧
    (∀ s : Greedy.MazeState, -Greedy.INF < s.game_score_ →
      (s.inGrid → ∃ pre post, s.legalActions = pre ++ Greedy.greedyAction s :: post ∧
        (∀ b ∈ s.legalActions,
          (s.advance b).game_score_ ≤ (s.advance (Greedy.greedyAction s)).game_score_) ∧
        (∀ b ∈ pre,
          (s.advance b).game_score_ < (s.advance (Greedy.greedyAction s)).game_score_)) ∧
      (Greedy.greedyAction s = -1 ↔ s.legalActions = [])) := by
  constructor
  · intro s hg
    have hspec := greedyAction_spec s hg
    refine ⟨?_, ?_, ?_⟩
    · intro hi
      rcases hspec with ⟨h, _⟩ | h
      · exact absurd h (legalActions_ne_nil s hi)
      · exact h
    · intro hm
      rcases hspec with ⟨h, _⟩ | ⟨pre, post, hl, _, _⟩
      · exact h
      · have hmem : greedyAction s ∈ s.legalActions := by
          rw [hl]
          exact List.mem_append_right _ (List.mem_cons_self _ _)
        have := mem_legalActions_range s _ hmem
        omega
    · intro hnil
      rcases hspec with ⟨_, h⟩ | ⟨pre, post, hl, _, _⟩
      · exact h
      · rw [hnil] at hl
        simp at hl
  · intro s hg
    have hspec := greedyFile_greedyAction_spec s hg
    refine ⟨?_, ?_, ?_⟩
    · intro hi
      rcases hspec with ⟨h, _⟩ | h
      · exact absurd h (greedyFile_legalActions_ne_nil s hi)
      · exact h
    · intro hm
      rcases hspec with ⟨h, _⟩ | ⟨pre, post, hl, _, _⟩
      · exact h
      · have hmem : Greedy.greedyAction s ∈ s.legalActions := by
          rw [hl]
          exact List.mem_append_right _ (List.mem_cons_self _ _)
        rw [greedyFile_mem_legalActions] at hmem
        omega
    · intro hnil
      rcases hspec with ⟨_, h⟩ | ⟨pre, post, hl, _, _⟩
      · exact h
      · rw [hnil] at hl
        simp at hl

/-- C18, witness of the amended statement: from `(1, 1)` with the only reward below the
agent, in both files. -/
theorem C18_witness :
    (∃ pre post, (mkState 0 1 1 2 1 5).legalActions
        = pre ++ greedyAction (mkState 0 1 1 2 1 5) :: post ∧
      (∀ b ∈ (mkState 0 1 1 2 1 5).legalActions,
        ((mkState 0 1 1 2 1 5).advance b).game_score_
          ≤ ((mkState 0 1 1 2 1 5).advance (greedyAction (mkState 0 1 1 2 1 5))).game_score_) ∧
      (∀ b ∈ pre,
        ((mkState 0 1 1 2 1 5).advance b).game_score_
          < ((mkState 0 1 1 2 1 5).advance (greedyAction (mkState 0 1 1 2 1 5))).game_score_)) ∧
    (∃ pre post, (Greedy.mkState 0 1 1 2 1 5).legalActions
        = pre ++ Greedy.greedyAction (Greedy.mkState 0 1 1 2 1 5) :: post ∧
      (∀ b ∈ (Greedy.mkState 0 1 1 2 1 5).legalActions,
        ((Greedy.mkState 0 1 1 2 1 5).advance b).game_score_
          ≤ ((Greedy.mkState 0 1 1 2 1 5).advance
              (Greedy.greedyAction (Greedy.mkState 0 1 1 2 1 5))).game_score_) ∧
      (∀ b ∈ pre,
        ((Greedy.mkState 0 1 1 2 1 5).advance b).game_score_
          < ((Greedy.mkState 0 1 1 2 1 5).advance
              (Greedy.greedyAction (Greedy.mkState 0 1 1 2 1 5))).game_score_)) :=
  ⟨(C18_greedy_action_amended.1 (mkState 0 1 1 2 1 5) (by decide)).1 (by decide),
    (C18_greedy_action_amended.2 (Greedy.mkState 0 1 1 2 1 5) (by decide)).1 (by decide)⟩

end BeamSearchWithTime

namespace BeamSearchWithTime

/-! ## C19: beam search of depth one against the greedy choice -/

theorem nextState_score (t : Int) (s : MazeState) (a : Int) :
    (nextState t s a).evaluated_score_ = (s.advance a).game_score_ := by
  unfold nextState
  split <;> rfl

/-- C19, counterexample: a state with the agent at `(1, 1)`, inside the grid, a reward
`5` below the agent and `game_score_ = -1000000010`, below `-INF`, with `beam_width = 1`.
`beamSearchAction(state, 1, 1)` returns the legal action `2`, which leads to
`game_score_ = -1000000005`; `greedyAction(state)` returns `-1`, which is not an action
identifier (the tables `dx`, `dy` have no entry `-1`), so no state is obtained by
advancing with it. -/
theorem C19_counterexample :
    ({ mkState 0 1 1 2 1 5 with game_score_ := -1000000010 } : MazeState).inGrid ∧
    ({ mkState 0 1 1 2 1 5 with game_score_ := -1000000010 } : MazeState).legalActions
      = [0, 1, 2, 3] ∧
    beamSearchAction listPQ { mkState 0 1 1 2 1 5 with game_score_ := -1000000010 } 1 1
      = .ret 2 ∧
    (({ mkState 0 1 1 2 1 5 with game_score_ := -1000000010 } : MazeState).advance
      2).game_score_ = -1000000005 ∧
    greedyAction { mkState 0 1 1 2 1 5 with game_score_ := -1000000010 } = -1 ∧
    (-1 : Int) ∉
      ({ mkState 0 1 1 2 1 5 with game_score_ := -1000000010 } : MazeState).legalActions := by
  decide

/-- C19, amended: for a state with the agent inside the grid and a `game_score_` greater
than `-INF` (as every non-negative score is) and `beam_width ≥ 1`,
`beamSearchAction(state, beam_width, 1)` returns a legal action, and advancing by it gives
the same `game_score_` as advancing by `greedyAction(state)`. -/
theorem C19_depth_one_is_greedy_amended (pq : PriorityQueue) (s : MazeState) (w : Int)
    (hi : s.inGrid) (hg : -INF < s.game_score_) (hw : 1 ≤ w) :
    ∃ a, beamSearchAction pq s w 1 = .ret a ∧ a ∈ s.legalActions ∧
      (s.advance a).game_score_ = (s.advance (greedyAction s)).game_score_ := by
  obtain ⟨hne, hnode⟩ := init_queue pq s
  have hperm := expandA_perm pq 0 w.toNat (pq.push [] s) []
  simp only [List.nil_append] at hperm
  have hpop_eq : ∀ x ∈ popped pq w.toNat (pq.push [] s), x = s := by
    intro x hx
    have := hnode x (popped_subset pq _ _ x hx)
    simpa [Node] using this
  have hs_pop : s ∈ popped pq w.toNat (pq.push [] s) := by
    have hnn := popped_ne_nil pq w.toNat (pq.push [] s) (by omega) hne
    cases hp : popped pq w.toNat (pq.push [] s) with
    | nil => exact absurd hp hnn
    | cons x xs =>
      have := hpop_eq x (by rw [hp]; exact List.mem_cons_self _ _)
      rw [← this]
      exact List.mem_cons_self _ _
  have hmem : ∀ x, x ∈ expandA pq 0 w.toNat (pq.push [] s) [] ↔
      ∃ a ∈ s.legalActions, x = nextState 0 s a := by
    intro x
    rw [hperm.mem_iff, mem_candidates]
    constructor
    · rintro ⟨p, hp, a, ha, rfl⟩
      rw [hpop_eq p hp] at ha ⊢
      exact ⟨a, ha, rfl⟩
    · rintro ⟨a, ha, rfl⟩
      exact ⟨s, hs_pop, a, ha, rfl⟩
  have hnn : expandA pq 0 w.toNat (pq.push [] s) [] ≠ [] := by
    obtain ⟨a, as, hl⟩ := List.exists_cons_of_ne_nil (legalActions_ne_nil s hi)
    have : nextState 0 s a ∈ expandA pq 0 w.toNat (pq.push [] s) [] :=
      (hmem _).2 ⟨a, by rw [hl]; exact List.mem_cons_self _ _, rfl⟩
    exact List.ne_nil_of_mem this
  obtain ⟨b, hb, hbm, hmax⟩ := top_some_of_ne_nil pq _ hnn
  obtain ⟨a, ha, rfl⟩ := (hmem b).1 hbm
  have hout : beamSearchAction pq s w 1 = .ret (nextState 0 s a).first_action_ := by
    have h1 : (1 : Int).toNat = 0 + 1 := rfl
    unfold beamSearchAction runA
    rw [h1, roundsA_succ, hb]
    by_cases hd : (nextState 0 s a).isDone = true
    · simp [hd]
    · simp [hd, roundsA_zero, Run.after]
  have hfa : (nextState 0 s a).first_action_ = a := by
    rw [nextState_first_action, if_pos rfl]
  rw [hfa] at hout
  refine ⟨a, hout, ha, ?_⟩
  rcases greedyAction_spec s hg with ⟨hnil, _⟩ | ⟨pre, post, hl, hgmax, _⟩
  · exact absurd hnil (legalActions_ne_nil s hi)
  · have hgm : greedyAction s ∈ s.legalActions := by
      rw [hl]
      exact List.mem_append_right _ (List.mem_cons_self _ _)
    have h1 := hgmax a ha
    have h2 := hmax (nextState 0 s (greedyAction s)) ((hmem _).2 ⟨_, hgm, rfl⟩)
    rw [nextState_score, nextState_score] at h2
    omega

/-- C19, witness of the amended statement: from `(1, 1)` with the only reward below the
agent, width `3`. -/
theorem C19_witness :
    ∃ a, beamSearchAction listPQ (mkState 0 1 1 2 1 5) 3 1 = .ret a ∧
      a ∈ (mkState 0 1 1 2 1 5).legalActions ∧
      ((mkState 0 1 1 2 1 5).advance a).game_score_
        = ((mkState 0 1 1 2 1 5).advance (greedyAction (mkState 0 1 1 2 1 5))).game_score_ :=
  C19_depth_one_is_greedy_amended listPQ (mkState 0 1 1 2 1 5) 3 (by decide) (by decide)
    (by decide)

end BeamSearchWithTime

namespace BeamSearchWithTime

/-! ## C20: conservation of the rewards -/

/-- Setting one cell of an `h × w` rectangle to `0` lowers the sum over the rectangle by
the value of that cell. -/
theorem rectSum_update (h w : Nat) (p : Int → Int → Int) (cy cx : Int)
    (hy : 0 ≤ cy ∧ cy < h) (hx : 0 ≤ cx ∧ cx < w) :
    (Finset.sum (Finset.range h) fun y =>
      Finset.sum (Finset.range w) fun x =>
        if ((y : Int) = cy ∧ (x : Int) = cx) then 0 else p (y : Int) (x : Int))
      = (Finset.sum (Finset.range h) fun y =>
          Finset.sum (Finset.range w) fun x => p (y : Int) (x : Int)) - p cy cx := by
  obtain ⟨j, rfl⟩ : ∃ j : Nat, cy = (j : Int) := ⟨cy.toNat, by omega⟩
  obtain ⟨i, rfl⟩ : ∃ i : Nat, cx = (i : Int) := ⟨cx.toNat, by omega⟩
  have hj : j < h := by omega
  have hi : i < w := by omega
  have hcell : ∀ y x : Nat,
      (if ((y : Int) = (j : Int) ∧ (x : Int) = (i : Int)) then 0 else p (y : Int) (x : Int))
        = p (y : Int) (x : Int)
          - (if y = j then (if x = i then p (j : Int) (i : Int) else 0) else 0) := by
    intro y x
    by_cases h1 : y = j
    · by_cases h2 : x = i
      · subst h1 h2; simp
      · subst h1
        have : ¬ ((x : Int) = (i : Int)) := by omega
        simp [h2, this]
    · have : ¬ ((y : Int) = (j : Int)) := by omega
      simp [h1, this]
  simp only [hcell, Finset.sum_sub_distrib]
  have hinner : ∀ y : Nat,
      (Finset.sum (Finset.range w) fun x =>
        if y = j then (if x = i then p (j : Int) (i : Int) else 0) else 0)
        = if y = j then p (j : Int) (i : Int) else 0 := by
    intro y
    by_cases h1 : y = j
    · simp only [h1, if_true]
      rw [Finset.sum_ite_eq']
      simp [hi]
    · simp [h1]
  simp only [hinner]
  rw [Finset.sum_ite_eq']
  simp [hj]

theorem gridSum_advance (s : MazeState) (a : Int) (ha : a ∈ s.legalActions) :
    (s.advance a).game_score_ + gridSum (s.advance a).points_
      = s.game_score_ + gridSum s.points_ := by
  have hin := (mem_legalActions s a).1 ha
  simp only [MazeState.advance]
  split
  · unfold gridSum
    rw [rectSum_update H.toNat W.toNat s.points_ _ _
      (by unfold H at *; omega) (by unfold W at *; omega)]
    ring
  · rfl

end BeamSearchWithTime

namespace BeamSearchWithTime

theorem rectSum_nonneg (h w : Nat) (p : Int → Int → Int)
    (hp : ∀ y x : Int, 0 ≤ y → y < h → 0 ≤ x → x < w → 0 ≤ p y x) :
    0 ≤ Finset.sum (Finset.range h) fun y =>
      Finset.sum (Finset.range w) fun x => p (y : Int) (x : Int) := by
  apply Finset.sum_nonneg
  intro y hy
  apply Finset.sum_nonneg
  intro x hx
  rw [Finset.mem_range] at hy hx
  exact hp y x (by omega) (by omega) (by omega) (by omega)

theorem nonneg_advance (s : MazeState) (a : Int)
    (hp : ∀ y x : Int, 0 ≤ y → y < H → 0 ≤ x → x < W → 0 ≤ s.points_ y x) :
    ∀ y x : Int, 0 ≤ y → y < H → 0 ≤ x → x < W → 0 ≤ (s.advance a).points_ y x := by
  intro y x h1 h2 h3 h4
  simp only [MazeState.advance]
  split
  · simp only []
    split
    · exact le_refl _
    · exact hp y x h1 h2 h3 h4
  · exact hp y x h1 h2 h3 h4

/-- Along legal moves on a grid without negative rewards, `game_score_` plus the grid sum
is constant, `game_score_` does not decrease, and the grid stays without negative
rewards. -/
theorem legalPath_conservation (actions : List Int) :
    ∀ s : MazeState, LegalPath s actions →
      (∀ y x : Int, 0 ≤ y → y < H → 0 ≤ x → x < W → 0 ≤ s.points_ y x) →
      (advanceAll s actions).game_score_ + gridSum (advanceAll s actions).points_
        = s.game_score_ + gridSum s.points_ ∧
      s.game_score_ ≤ (advanceAll s actions).game_score_ ∧
      0 ≤ gridSum (advanceAll s actions).points_ := by
  induction actions with
  | nil =>
    intro s _ hp
    refine ⟨rfl, le_refl _, ?_⟩
    exact rectSum_nonneg H.toNat W.toNat s.points_
      (fun y x h1 h2 h3 h4 => hp y x h1 (by unfold H at *; omega) h3 (by unfold W at *; omega))
  | cons a as ih =>
    intro s hl hp
    obtain ⟨h1, h2, h3⟩ := ih (s.advance a) hl.2 (nonneg_advance s a hp)
    have h4 := gridSum_advance s a hl.1
    have h5 := advance_game_score_ge s a
    simp only [advanceAll, List.foldl_cons] at h1 h2 h3 ⊢
    exact ⟨by omega, by omega, h3⟩

theorem greedyFile_gridSum_advance (s : Greedy.MazeState) (a : Int)
    (ha : a ∈ s.legalActions) :
    (s.advance a).game_score_ + Greedy.gridSum (s.advance a).points_
      = s.game_score_ + Greedy.gridSum s.points_ := by
  have hin := (greedyFile_mem_legalActions s a).1 ha
  simp only [Greedy.MazeState.advance]
  split
  · unfold Greedy.gridSum
    rw [rectSum_update Greedy.H.toNat Greedy.W.toNat s.points_ _ _
      (by unfold Greedy.H at *; omega) (by unfold Greedy.W at *; omega)]
    ring
  · rfl

theorem greedyFile_nonneg_advance (s : Greedy.MazeState) (a : Int)
    (hp : ∀ y x : Int, 0 ≤ y → y < Greedy.H → 0 ≤ x → x < Greedy.W → 0 ≤ s.points_ y x) :
    ∀ y x : Int, 0 ≤ y → y < Greedy.H → 0 ≤ x → x < Greedy.W →
      0 ≤ (s.advance a).points_ y x := by
  intro y x h1 h2 h3 h4
  simp only [Greedy.MazeState.advance]
  split
  · simp only []
    split
    · exact le_refl _
    · exact hp y x h1 h2 h3 h4
  · exact hp y x h1 h2 h3 h4

theorem greedyFile_legalPath_conservation (actions : List Int) :
    ∀ s : Greedy.MazeState, Greedy.LegalPath s actions →
      (∀ y x : Int, 0 ≤ y → y < Greedy.H → 0 ≤ x → x < Greedy.W → 0 ≤ s.points_ y x) →
      (Greedy.advanceAll s actions).game_score_
          + Greedy.gridSum (Greedy.advanceAll s actions).points_
        = s.game_score_ + Greedy.gridSum s.points_ ∧
      s.game_score_ ≤ (Greedy.advanceAll s actions).game_score_ ∧
      0 ≤ Greedy.gridSum (Greedy.advanceAll s actions).points_ := by
  induction actions with
  | nil =>
    intro s _ hp
    refine ⟨rfl, le_refl _, ?_⟩
    exact rectSum_nonneg Greedy.H.toNat Greedy.W.toNat s.points_
      (fun y x h1 h2 h3 h4 => hp y x h1 (by unfold Greedy.H at *; omega) h3
        (by unfold Greedy.W at *; omega))
  | cons a as ih =>
    intro s hl hp
    obtain ⟨h1, h2, h3⟩ := ih (s.advance a) hl.2 (greedyFile_nonneg_advance s a hp)
    have h4 := greedyFile_gridSum_advance s a hl.1
    have h5 := greedyFile_advance_game_score_ge s a
    simp only [Greedy.advanceAll, List.foldl_cons] at h1 h2 h3 ⊢
    exact ⟨by omega, by omega, h3⟩

/-- C20: for a state with the agent inside the grid and a legal action, `game_score_`
plus the sum of all grid cells is the same before and after `advance`; hence, when no
cell is negative, along every sequence of legal `advance` calls `game_score_` does not
fall below its initial value and does not exceed the initial `game_score_` plus the
initial grid sum.  Stated for `src/BeamSearchWithTime.cpp` and for `src/Greedy.cpp`. -/
theorem C20_reward_conservation :
    ((∀ (s : MazeState) (a : Int), s.inGrid → a ∈ s.legalActions →
        (s.advance a).game_score_ + gridSum (s.advance a).points_
          = s.game_score_ + gridSum s.points_) ∧
      (∀ (s : MazeState) (actions : List Int), s.inGrid → LegalPath s actions →
        (∀ y x : Int, 0 ≤ y → y < H → 0 ≤ x → x < W → 0 ≤ s.points_ y x) →
        s.game_score_ ≤ (advanceAll s actions).game_score_ ∧
        (advanceAll s actions).game_score_ ≤ s.game_score_ + gridSum s.points_)) ∧
    ((∀ (s : Greedy.MazeState) (a : Int), s.inGrid → a ∈ s.legalActions →
        (s.advance a).game_score_ + Greedy.gridSum (s.advance a).points_
          = s.game_score_ + Greedy.gridSum s.points_) ∧
      (∀ (s : Greedy.MazeState) (actions : List Int), s.inGrid → Greedy.LegalPath s actions →
        (∀ y x : Int, 0 ≤ y → y < Greedy.H → 0 ≤ x → x < Greedy.W → 0 ≤ s.points_ y x) →
        s.game_score_ ≤ (Greedy.advanceAll s actions).game_score_ ∧
        (Greedy.advanceAll s actions).game_score_
          ≤ s.game_score_ + Greedy.gridSum s.points_)) := by
  refine ⟨⟨fun s a _ ha => gridSum_advance s a ha, ?_⟩,
    ⟨fun s a _ ha => greedyFile_gridSum_advance s a ha, ?_⟩⟩
  · intro s actions _ hl hp
    obtain ⟨h1, h2, h3⟩ := legalPath_conservation actions s hl hp
    exact ⟨h2, by omega⟩
  · intro s actions _ hl hp
    obtain ⟨h1, h2, h3⟩ := greedyFile_legalPath_conservation actions s hl hp
    exact ⟨h2, by omega⟩

end BeamSearchWithTime

namespace BeamSearchWithTime

/-- C20, witness: from `(1, 1)`, stepping down onto the reward `5` and then right, in
both files. -/
theorem C20_witness :
    (((mkState 0 1 1 2 1 5).advance 2).game_score_
        + gridSum ((mkState 0 1 1 2 1 5).advance 2).points_
        = (mkState 0 1 1 2 1 5).game_score_ + gridSum (mkState 0 1 1 2 1 5).points_ ∧
      ((mkState 0 1 1 2 1 5).game_score_
          ≤ (advanceAll (mkState 0 1 1 2 1 5) [2, 0]).game_score_ ∧
        (advanceAll (mkState 0 1 1 2 1 5) [2, 0]).game_score_
          ≤ (mkState 0 1 1 2 1 5).game_score_ + gridSum (mkState 0 1 1 2 1 5).points_)) ∧
    (((Greedy.mkState 0 1 1 2 1 5).advance 2).game_score_
        + Greedy.gridSum ((Greedy.mkState 0 1 1 2 1 5).advance 2).points_
        = (Greedy.mkState 0 1 1 2 1 5).game_score_
          + Greedy.gridSum (Greedy.mkState 0 1 1 2 1 5).points_ ∧
      ((Greedy.mkState 0 1 1 2 1 5).game_score_
          ≤ (Greedy.advanceAll (Greedy.mkState 0 1 1 2 1 5) [2, 0]).game_score_ ∧
        (Greedy.advanceAll (Greedy.mkState 0 1 1 2 1 5) [2, 0]).game_score_
          ≤ (Greedy.mkState 0 1 1 2 1 5).game_score_
            + Greedy.gridSum (Greedy.mkState 0 1 1 2 1 5).points_)) :=
  ⟨⟨C20_reward_conservation.1.1 (mkState 0 1 1 2 1 5) 2 (by decide) (by decide),
      C20_reward_conservation.1.2 (mkState 0 1 1 2 1 5) [2, 0] (by decide)
        ⟨by decide, by decide, trivial⟩
        (fun y x _ _ _ _ => by simp only [mkState]; split <;> decide)⟩,
    ⟨C20_reward_conservation.2.1 (Greedy.mkState 0 1 1 2 1 5) 2 (by decide) (by decide),
      C20_reward_conservation.2.2 (Greedy.mkState 0 1 1 2 1 5) [2, 0] (by decide)
        ⟨by decide, by decide, trivial⟩
        (fun y x _ _ _ _ => by simp only [Greedy.mkState]; split <;> decide)⟩⟩

end BeamSearchWithTime
